import Mathlib

/-!
Verification of the VC4C middle-end specification against the sources in
`src/`: `Method.cpp`, `KernelMetaData.h`, `normalization/MemoryAccess.cpp`
and `optimization/Eliminator.cpp`.

Each section embeds the data and control flow of one source function as
executable Lean definitions (machine integers become `Nat`/`Int` with an
explicit `% 2 ^ 32` where C++ arithmetic wraps; fallible lookups become
`Option`) and proves or refutes the spec's claims about it.  Loops whose
bound is data-dependent are written with an explicit fuel parameter that is
structurally decreasing; every use supplies fuel larger than the loop's
proved step bound, so the fuel never runs out and the definitions compute
exactly what the C++ loops compute.
-/

/-! ## Kernel metadata (`KernelMetaData.h`) -/

/-- Model of `KernelMetaData`: the three `reqd_work_group_size` dimensions
(`uint32_t` each, modelled as `Nat`) and the work-item merge factor
(`uint8_t`). -/
structure KernelMetaData where
  workGroupSizes : Nat × Nat × Nat
  mergedWorkItemsFactor : Nat := 0
  deriving DecidableEq

/-- Translation of `KernelMetaData::getFixedWorkGroupSize`: if any of the
three compile-time work-group dimensions is positive, the product of all
three (wrapping `uint32_t` multiplication) is returned, otherwise no value.
-/
def KernelMetaData.getFixedWorkGroupSize (md : KernelMetaData) : Option Nat :=
  if md.workGroupSizes.1 > 0 ∨ md.workGroupSizes.2.1 > 0 ∨ md.workGroupSizes.2.2 > 0 then
    some (md.workGroupSizes.1 * md.workGroupSizes.2.1 * md.workGroupSizes.2.2 % 2 ^ 32)
  else
    none

/-- Translation of `KernelMetaData::getMaximumWorkGroupSize`.  `NUM_QPUS` is
a hardware constant from `config.h`, which is not part of the staged
sources; it is passed as the parameter `numQpus` (the "hardware default"
fall-back is `numQpus * max(mergedWorkItemsFactor, 1)`). -/
def KernelMetaData.getMaximumWorkGroupSize (numQpus : Nat) (md : KernelMetaData) : Nat :=
  match md.getFixedWorkGroupSize with
  | some fixedSize => fixedSize
  | none => numQpus * max md.mergedWorkItemsFactor 1

/-- C10: `getFixedWorkGroupSize` returns no value exactly when all three
compile-time work-group dimensions are zero; otherwise it returns the
(wrapping) product of all three.  In particular for sizes `(4, 0, 0)` the
fixed size is `0`, and `getMaximumWorkGroupSize` then also returns `0`
rather than falling back to the hardware default. -/
theorem c10_fixed_work_group_size :
    (∀ md : KernelMetaData,
      md.getFixedWorkGroupSize =
        if md.workGroupSizes.1 = 0 ∧ md.workGroupSizes.2.1 = 0 ∧ md.workGroupSizes.2.2 = 0 then
          none
        else some (md.workGroupSizes.1 * md.workGroupSizes.2.1 * md.workGroupSizes.2.2 % 2 ^ 32)) ∧
    (∀ f : Nat, KernelMetaData.getFixedWorkGroupSize ⟨(4, 0, 0), f⟩ = some 0) ∧
    (∀ numQpus f : Nat, KernelMetaData.getMaximumWorkGroupSize numQpus ⟨(4, 0, 0), f⟩ = 0) := by
  refine ⟨fun md => ?_, fun f => rfl, fun numQpus f => rfl⟩
  rcases md with ⟨⟨x, y, z⟩, f⟩
  simp only [KernelMetaData.getFixedWorkGroupSize]
  rcases Nat.eq_zero_or_pos x with hx | hx <;>
    rcases Nat.eq_zero_or_pos y with hy | hy <;>
      rcases Nat.eq_zero_or_pos z with hz | hz <;>
        simp_all <;> omega

/-! ## Basic-block removal (`Method::removeBlock`, `Method.cpp`) -/

/-- Instruction of a basic-block body, as far as `Method::removeBlock`
inspects one: whether it is a `Branch`, and its set of target labels
(labels are identified by a natural number). -/
structure RInstr where
  isBranch : Bool := false
  targets : List Nat := []
  deriving DecidableEq

/-- Basic block: the label that heads it (the `BranchLabel` instruction) and
the body behind the label.  A block is "empty" exactly when its body is. -/
structure RBlock where
  labelId : Nat
  body : List RInstr := []
  deriving DecidableEq

/-- Method as a list of basic blocks. -/
structure RMethod where
  blocks : List RBlock
  deriving DecidableEq

/-- Whether some instruction of the method explicitly branches to label `l`.
Modelled from the spec: `BasicBlock::forPredecessors` (not part of the
staged sources) enumerates the explicit branches naming this block's label
plus the implicit fall-through; `removeBlock` counts only the walkers
standing on a `Branch` whose target set contains the label. -/
def explicitlyBranchedTo (m : RMethod) (l : Nat) : Bool :=
  m.blocks.any fun bb => bb.body.any fun i => i.isBranch && i.targets.any fun t => decide (t = l)

/-- Translation of `Method::removeBlock`.  Without the override flag the
removal is refused when the block is non-empty or still explicitly
branched to; otherwise the first block equal to the argument is erased
(the C++ compares object addresses; the model compares block values) and
`true` returned, or `false` when the block is not part of the method. -/
def removeBlock (m : RMethod) (block : RBlock) (overwriteUsages : Bool) : RMethod × Bool :=
  if overwriteUsages = false ∧ (block.body ≠ [] ∨ explicitlyBranchedTo m block.labelId = true) then
    (m, false)
  else if block ∈ m.blocks then
    ({ blocks := m.blocks.erase block }, true)
  else
    (m, false)

/-- C9: without the override flag, `removeBlock` removes the block (and
returns `true`) exactly when the block is empty, no instruction explicitly
branches to its label, and the block belongs to the method; in every other
case it returns `false` and leaves the method unchanged. -/
theorem c9_removeBlock_refuses_used_blocks (m : RMethod) (block : RBlock) :
    removeBlock m block false =
      if block.body = [] ∧ explicitlyBranchedTo m block.labelId = false ∧ block ∈ m.blocks then
        ({ blocks := m.blocks.erase block }, true)
      else
        (m, false) := by
  simp only [removeBlock]
  by_cases h1 : block.body = [] <;> by_cases h2 : explicitlyBranchedTo m block.labelId = true <;>
    by_cases h3 : block ∈ m.blocks <;> simp_all

/-! ## Stack layout (`Method::calculateStackOffsets`, `Method::calculateStackSize`) -/

/-- Model of a `StackAllocation`: byte size, alignment, assigned offset and
the "is lowered" flag (lowered allocations were promoted into registers or
the scratchpad and do not occupy in-memory stack space). -/
structure StackAllocation where
  size : Nat
  alignment : Nat := 1
  offset : Nat := 0
  isLowered : Bool := false
  deriving DecidableEq

/-- Alignment step of `calculateStackOffsets`: round `cur` up so that
`stackBaseOffset + cur` is a multiple of `alignment` (the two C++ lines
`if((stackBaseOffset + currentOffset) % alignment != 0) currentOffset += ...`). -/
def alignOffset (stackBaseOffset cur alignment : Nat) : Nat :=
  if (stackBaseOffset + cur) % alignment ≠ 0 then
    cur + (alignment - (stackBaseOffset + cur) % alignment)
  else
    cur

/-- One pass of `calculateStackOffsets`: walk the allocations in order and
assign offsets to exactly those with `isLowered = lowered`, threading the
running offset; the others are left untouched.  Returns the rewritten list
and the final running offset. -/
def stackPass (stackBaseOffset : Nat) (lowered : Bool) :
    List StackAllocation → Nat → List StackAllocation × Nat
  | [], cur => ([], cur)
  | sa :: rest, cur =>
    if sa.isLowered = lowered then
      let o := alignOffset stackBaseOffset cur sa.alignment
      let r := stackPass stackBaseOffset lowered rest (o + sa.size)
      ({ sa with offset := o } :: r.1, r.2)
    else
      let r := stackPass stackBaseOffset lowered rest cur
      (sa :: r.1, r.2)

/-- Translation of `Method::calculateStackOffsets`: first pack the
non-lowered allocations starting at running offset `0`, then pack the
lowered allocations continuing from where the first pass left off (their
synthesized "addresses" must not collide with the real ones).
`stackBaseOffset` abstracts `Method::getStackBaseOffset()`, whose value
comes from the module's global-data segment (not part of the staged
sources). -/
def calculateStackOffsets (stackBaseOffset : Nat) (allocs : List StackAllocation) :
    List StackAllocation :=
  let r1 := stackPass stackBaseOffset false allocs 0
  (stackPass stackBaseOffset true r1.1 r1.2).1

/-- Accumulator loop of `calculateStackSize`: the non-lowered allocation
maximizing `offset + size`, first maximum kept on ties (the C++ keeps `max`
unless strictly exceeded). -/
def maxNonLoweredAux (acc : Option StackAllocation) :
    List StackAllocation → Option StackAllocation
  | [] => acc
  | sa :: rest =>
    if sa.isLowered then maxNonLoweredAux acc rest
    else
      match acc with
      | none => maxNonLoweredAux (some sa) rest
      | some m =>
        if m.offset + m.size < sa.offset + sa.size then maxNonLoweredAux (some sa) rest
        else maxNonLoweredAux acc rest

/-- Rounding helper shared by `calculateStackSize`: round `n` up to the next
multiple of `k` (the C++ two-line pattern `if(n % k != 0) n += k - n % k`). -/
def roundUpTo (k n : Nat) : Nat :=
  if n % k ≠ 0 then n + (k - n % k) else n

/-- Alignment of the first stack allocation, `1` if there is none (the C++
`maxAlignment = 1; if(!stackAllocations.empty()) maxAlignment =
stackAllocations.begin()->alignment`). -/
def firstAlignment (allocs : List StackAllocation) : Nat :=
  match allocs.head? with
  | some a => a.alignment
  | none => 1

/-- Translation of `Method::calculateStackSize`: zero when there are no
allocations or all are lowered; otherwise the highest `offset + size` among
the non-lowered allocations, rounded up to the first allocation's alignment
and then to an 8-byte boundary. -/
def calculateStackSize (allocs : List StackAllocation) : Nat :=
  if allocs.isEmpty then 0
  else
    match maxNonLoweredAux none allocs with
    | none => 0
    | some mx =>
      roundUpTo 8 (roundUpTo (firstAlignment allocs) (mx.offset + mx.size))

/-- Maximum of a list of naturals (zero for the empty list). -/
def natMaxList (l : List Nat) : Nat := l.foldr max 0

/-- Stack size as the specification words it (claim C7): zero when every
allocation is lowered, otherwise the highest `offset + size` among the
non-lowered allocations rounded up first to the largest alignment present
among the stack allocations and then to an 8-byte boundary. -/
def claimStackSize (allocs : List StackAllocation) : Nat :=
  let nonLowered := allocs.filter fun a => !a.isLowered
  if nonLowered.isEmpty then 0
  else
    let highest := natMaxList (nonLowered.map fun a => a.offset + a.size)
    let largestAlign := natMaxList (allocs.map fun a => a.alignment)
    roundUpTo 8 (roundUpTo largestAlign highest)

theorem le_natMaxList {x : Nat} : ∀ {l : List Nat}, x ∈ l → x ≤ natMaxList l
  | a :: t, h => by
    rcases List.mem_cons.mp h with h | h
    · subst h; exact le_max_left _ _
    · exact le_trans (le_natMaxList h) (le_max_right _ _)

theorem natMaxList_le {b : Nat} : ∀ {l : List Nat}, (∀ x ∈ l, x ≤ b) → natMaxList l ≤ b
  | [], _ => Nat.zero_le b
  | a :: t, h => by
    simp only [natMaxList, List.foldr_cons]
    exact max_le (h a (List.mem_cons_self a t))
      (natMaxList_le fun x hx => h x (List.mem_cons_of_mem a hx))

theorem maxNonLoweredAux_eq_none :
    ∀ {l : List StackAllocation} {acc : Option StackAllocation},
      maxNonLoweredAux acc l = none ↔ acc = none ∧ ∀ a ∈ l, a.isLowered = true := by
  intro l
  induction l with
  | nil => intro acc; simp [maxNonLoweredAux]
  | cons sa rest ih =>
    intro acc
    by_cases h : sa.isLowered
    · cases acc <;> simp [maxNonLoweredAux, h, ih]
    · cases acc with
      | none =>
        have hstep : maxNonLoweredAux none (sa :: rest) = maxNonLoweredAux (some sa) rest := by
          simp [maxNonLoweredAux, h]
        rw [hstep, ih]
        simp [h]
      | some m =>
        have hstep : maxNonLoweredAux (some m) (sa :: rest) =
            if m.offset + m.size < sa.offset + sa.size then maxNonLoweredAux (some sa) rest
            else maxNonLoweredAux (some m) rest := by
          simp [maxNonLoweredAux, h]
        rw [hstep]
        split_ifs <;> rw [ih] <;> simp [h]

theorem maxNonLoweredAux_some_end :
    ∀ {l : List StackAllocation} {acc : Option StackAllocation} {mx : StackAllocation},
      maxNonLoweredAux acc l = some mx →
      mx.offset + mx.size =
        max (match acc with | none => 0 | some a => a.offset + a.size)
          (natMaxList ((l.filter fun a => !a.isLowered).map fun a => a.offset + a.size)) := by
  intro l
  induction l with
  | nil =>
    intro acc mx h
    cases acc with
    | none => simp [maxNonLoweredAux] at h
    | some m => simp [maxNonLoweredAux] at h; subst h; simp [natMaxList]
  | cons sa rest ih =>
    intro acc mx h
    cases acc with
    | none =>
      by_cases hlow : sa.isLowered
      · rw [show maxNonLoweredAux none (sa :: rest) = maxNonLoweredAux none rest from by
          simp [maxNonLoweredAux, hlow]] at h
        simpa [hlow] using ih h
      · rw [show maxNonLoweredAux none (sa :: rest) = maxNonLoweredAux (some sa) rest from by
          simp [maxNonLoweredAux, hlow]] at h
        have hr := ih h
        simp only [hlow, Bool.not_false, List.filter_cons_of_pos, List.map_cons]
        simp only [natMaxList, List.foldr_cons] at hr ⊢
        omega
    | some m =>
      by_cases hlow : sa.isLowered
      · rw [show maxNonLoweredAux (some m) (sa :: rest) = maxNonLoweredAux (some m) rest from by
          simp [maxNonLoweredAux, hlow]] at h
        simpa [hlow] using ih h
      · rw [show maxNonLoweredAux (some m) (sa :: rest) =
            (if m.offset + m.size < sa.offset + sa.size then maxNonLoweredAux (some sa) rest
             else maxNonLoweredAux (some m) rest) from by
          simp [maxNonLoweredAux, hlow]] at h
        simp only [hlow, Bool.not_false, List.filter_cons_of_pos, List.map_cons]
        simp only [natMaxList, List.foldr_cons]
        split_ifs at h with hcmp
        · have hr := ih h
          simp only [natMaxList] at hr
          omega
        · have hr := ih h
          simp only [natMaxList] at hr
          omega

theorem roundUpTo_eight_mod (n : Nat) : roundUpTo 8 n % 8 = 0 := by
  simp only [roundUpTo]
  split_ifs with h <;> omega

/-- C7 (amended only in presentation): `calculateStackSize` equals the
specification's stack size and is always a multiple of 8.  The hypothesis
`hfirst` states that the first stack allocation's alignment is maximal
among all of them, which holds for the real container: `Method`'s
`stackAllocations` is an ordered set sorted so that the largest alignment
comes first (the container and its comparator are not part of the staged
sources; the source comment "align to maximum stack entry alignment" and
the spec's "largest alignment present" document this ordering). -/
theorem c7_calculateStackSize (allocs : List StackAllocation)
    (hfirst : ∀ a ∈ allocs, a.alignment ≤ firstAlignment allocs) :
    calculateStackSize allocs = claimStackSize allocs ∧ calculateStackSize allocs % 8 = 0 := by
  have hmain : calculateStackSize allocs = claimStackSize allocs := by
    rw [calculateStackSize, claimStackSize]
    by_cases hemp : allocs.isEmpty
    · have : allocs = [] := List.isEmpty_iff.mp hemp
      subst this
      simp
    · simp only [hemp, ite_false]
      cases hmx : maxNonLoweredAux none allocs with
      | none =>
        have hall := (maxNonLoweredAux_eq_none.mp hmx).2
        have : allocs.filter (fun a => !a.isLowered) = [] := by
          apply List.filter_eq_nil_iff.mpr
          intro a ha
          simp [hall a ha]
        simp [this]
      | some mx =>
        have hend := maxNonLoweredAux_some_end hmx
        simp only [Nat.zero_max] at hend
        have hne : ¬(allocs.filter fun a => !a.isLowered).isEmpty = true := by
          intro hcon
          have : maxNonLoweredAux (none : Option StackAllocation) allocs = none := by
            apply maxNonLoweredAux_eq_none.mpr
            refine ⟨rfl, fun a ha => ?_⟩
            by_contra hla
            have : a ∈ allocs.filter fun a => !a.isLowered := by
              apply List.mem_filter.mpr
              exact ⟨ha, by simp [Bool.not_eq_true] at hla ⊢; exact hla⟩
            rw [List.isEmpty_iff.mp hcon] at this
            cases this
          rw [this] at hmx
          cases hmx
        simp only [hne, ite_false]
        have halign : natMaxList (allocs.map fun a => a.alignment) = firstAlignment allocs := by
          apply le_antisymm
          · apply natMaxList_le
            intro x hx
            rcases List.mem_map.mp hx with ⟨a, ha, rfl⟩
            exact hfirst a ha
          · rcases hhead : allocs.head? with _ | ⟨a0⟩
            · rw [List.head?_eq_none_iff] at hhead
              subst hhead
              simp at hemp
            · have h0 : a0 ∈ allocs := List.mem_of_mem_head? hhead
              have : firstAlignment allocs = a0.alignment := by
                simp [firstAlignment, hhead]
              rw [this]
              exact le_natMaxList (List.mem_map.mpr ⟨a0, h0, rfl⟩)
        rw [hend, halign]
  exact ⟨hmain, by rw [calculateStackSize]; split_ifs <;> first | rfl | (split <;> simp [roundUpTo_eight_mod])⟩

theorem le_alignOffset (base cur a : Nat) : cur ≤ alignOffset base cur a := by
  simp only [alignOffset]
  split_ifs <;> omega

theorem alignOffset_aligned (base cur a : Nat) (ha : 0 < a) :
    (base + alignOffset base cur a) % a = 0 := by
  simp only [alignOffset]
  split_ifs with h
  · have hlt : (base + cur) % a < a := Nat.mod_lt _ ha
    rw [← Nat.add_assoc, Nat.add_mod (base + cur)]
    generalize hr : (base + cur) % a = r at *
    have h1 : (a - r) % a = a - r := Nat.mod_eq_of_lt (by omega)
    rw [h1, show r + (a - r) = a from by omega, Nat.mod_self]
  · exact not_not.mp h

theorem stackPass_spec (base : Nat) (low : Bool) :
    ∀ (l : List StackAllocation) (cur : Nat),
      cur ≤ (stackPass base low l cur).2 ∧
      ((stackPass base low l cur).1.filter fun a => decide (¬a.isLowered = low)) =
        (l.filter fun a => decide (¬a.isLowered = low)) ∧
      (∀ a ∈ (stackPass base low l cur).1, a.isLowered = low →
        cur ≤ a.offset ∧ a.offset + a.size ≤ (stackPass base low l cur).2 ∧
        (0 < a.alignment → (base + a.offset) % a.alignment = 0)) ∧
      List.Pairwise
        (fun a b => a.isLowered = low → b.isLowered = low → a.offset + a.size ≤ b.offset)
        (stackPass base low l cur).1 ∧
      (∀ a ∈ (stackPass base low l cur).1, ∃ b ∈ l, a.alignment = b.alignment) := by
  intro l
  induction l with
  | nil => intro cur; simp [stackPass]
  | cons sa rest ih =>
    intro cur
    by_cases hm : sa.isLowered = low
    · obtain ⟨ih1, ih2, ih3, ih4, ih5⟩ := ih (alignOffset base cur sa.alignment + sa.size)
      have hout : stackPass base low (sa :: rest) cur =
          ({ sa with offset := alignOffset base cur sa.alignment } ::
            (stackPass base low rest (alignOffset base cur sa.alignment + sa.size)).1,
           (stackPass base low rest (alignOffset base cur sa.alignment + sa.size)).2) := by
        simp [stackPass, hm]
      rw [hout]
      refine ⟨?_, ?_, ?_, ?_, ?_⟩
      · exact le_trans (le_alignOffset base cur sa.alignment)
          (le_trans (Nat.le_add_right _ _) ih1)
      · have hpred : (decide (¬({ sa with offset := alignOffset base cur sa.alignment } :
            StackAllocation).isLowered = low)) = false := by simp [hm]
        rw [List.filter_cons_of_neg (by simpa using hpred),
          List.filter_cons_of_neg (by simp [hm])]
        exact ih2
      · intro a ha hla
        rcases List.mem_cons.mp ha with rfl | ha
        · refine ⟨le_alignOffset base cur sa.alignment, le_trans (Nat.le.refl) ih1, ?_⟩
          intro hpos
          exact alignOffset_aligned base cur sa.alignment hpos
        · obtain ⟨g1, g2, g3⟩ := ih3 a ha hla
          exact ⟨le_trans (le_trans (le_alignOffset base cur sa.alignment)
            (Nat.le_add_right _ _)) g1, g2, g3⟩
      · constructor
        · intro b hb _ hlb
          exact (ih3 b hb hlb).1
        · exact ih4
      · intro a ha
        rcases List.mem_cons.mp ha with rfl | ha
        · exact ⟨sa, List.mem_cons_self sa rest, rfl⟩
        · obtain ⟨b, hb, hab⟩ := ih5 a ha
          exact ⟨b, List.mem_cons_of_mem sa hb, hab⟩
    · obtain ⟨ih1, ih2, ih3, ih4, ih5⟩ := ih cur
      have hout : stackPass base low (sa :: rest) cur =
          (sa :: (stackPass base low rest cur).1, (stackPass base low rest cur).2) := by
        simp [stackPass, hm]
      rw [hout]
      refine ⟨ih1, ?_, ?_, ?_, ?_⟩
      · rw [List.filter_cons_of_pos (by simpa using hm), List.filter_cons_of_pos (by simpa using hm)]
        exact congrArg (List.cons sa) ih2
      · intro a ha hla
        rcases List.mem_cons.mp ha with rfl | ha
        · exact absurd hla hm
        · exact ih3 a ha hla
      · constructor
        · intro b hb hla
          exact absurd hla hm
        · exact ih4
      · intro a ha
        rcases List.mem_cons.mp ha with heq | ha
        · exact ⟨sa, List.mem_cons_self sa rest, by rw [heq]⟩
        · obtain ⟨b, hb, hab⟩ := ih5 a ha
          exact ⟨b, List.mem_cons_of_mem sa hb, hab⟩

/-- C8: after `calculateStackOffsets`, the byte ranges `[offset, offset +
size)` of all stack allocations (lowered or not) are pairwise disjoint, and
every allocation's assigned position `stackBaseOffset + offset` is a
multiple of its alignment; in particular the synthesized offsets of lowered
allocations never collide with the real offsets of non-lowered ones.  The
hypothesis asks every alignment to be positive (a zero alignment makes the
C++ `%` undefined). -/
theorem c8_calculateStackOffsets (base : Nat) (allocs : List StackAllocation)
    (hal : ∀ a ∈ allocs, 0 < a.alignment) :
    List.Pairwise (fun a b => a.offset + a.size ≤ b.offset ∨ b.offset + b.size ≤ a.offset)
      (calculateStackOffsets base allocs) ∧
    ∀ a ∈ calculateStackOffsets base allocs, (base + a.offset) % a.alignment = 0 := by
  obtain ⟨h1le, h1filter, h1mem, h1pair, h1align⟩ := stackPass_spec base false allocs 0
  obtain ⟨h2le, h2filter, h2mem, h2pair, h2align⟩ :=
    stackPass_spec base true (stackPass base false allocs 0).1 (stackPass base false allocs 0).2
  have hdef : calculateStackOffsets base allocs =
      (stackPass base true (stackPass base false allocs 0).1 (stackPass base false allocs 0).2).1 :=
    rfl
  rw [hdef]
  set l1 := (stackPass base false allocs 0).1
  set c1 := (stackPass base false allocs 0).2
  set out := (stackPass base true l1 c1).1
  set c2 := (stackPass base true l1 c1).2
  have halOut : ∀ a ∈ out, 0 < a.alignment := by
    intro a ha
    obtain ⟨b, hb, hab⟩ := h2align a ha
    obtain ⟨b2, hb2, hbb2⟩ := h1align b hb
    rw [hab, hbb2]
    exact hal b2 hb2
  have hNonLowInL1 : ∀ a ∈ out, a.isLowered = false → a ∈ l1 := by
    intro a ha hlow
    have hmem : a ∈ out.filter fun a => decide (¬a.isLowered = true) :=
      List.mem_filter.mpr ⟨ha, by simp [hlow]⟩
    rw [h2filter] at hmem
    exact (List.mem_filter.mp hmem).1
  have hNonLowBound : ∀ a ∈ out, a.isLowered = false →
      a.offset + a.size ≤ c1 ∧ (base + a.offset) % a.alignment = 0 := by
    intro a ha hlow
    obtain ⟨g1, g2, g3⟩ := h1mem a (hNonLowInL1 a ha hlow) hlow
    exact ⟨g2, g3 (halOut a ha)⟩
  have hLowBound : ∀ a ∈ out, a.isLowered = true →
      c1 ≤ a.offset ∧ (base + a.offset) % a.alignment = 0 := by
    intro a ha hlow
    obtain ⟨g1, g2, g3⟩ := h2mem a ha hlow
    exact ⟨g1, g3 (halOut a ha)⟩
  constructor
  · have hP1out : List.Pairwise
        (fun a b : StackAllocation =>
          a.isLowered = false → b.isLowered = false → a.offset + a.size ≤ b.offset) out := by
      have base1 : List.Pairwise
          (fun a b : StackAllocation =>
            (¬a.isLowered = true) → (¬b.isLowered = true) → a.offset + a.size ≤ b.offset) l1 :=
        h1pair.imp fun h ha hb =>
          h (by simpa using ha) (by simpa using hb)
      have hf : List.Pairwise (fun a b : StackAllocation => a.offset + a.size ≤ b.offset)
          (l1.filter fun a => decide (¬a.isLowered = true)) := List.pairwise_filter.mpr base1
      rw [← h2filter] at hf
      exact (List.pairwise_filter.mp hf).imp fun h ha hb =>
        h (by simp [ha]) (by simp [hb])
    refine (h2pair.and hP1out).imp_of_mem ?_
    intro a b ha hb hR
    obtain ⟨hT, hF⟩ := hR
    cases haL : a.isLowered
    · cases hbL : b.isLowered
      · exact Or.inl (hF haL hbL)
      · exact Or.inl (le_trans (hNonLowBound a ha haL).1 (hLowBound b hb hbL).1)
    · cases hbL : b.isLowered
      · exact Or.inr (le_trans (hNonLowBound b hb hbL).1 (hLowBound a ha haL).1)
      · exact Or.inl (hT haL hbL)
  · intro a ha
    cases haL : a.isLowered
    · exact (hNonLowBound a ha haL).2
    · exact (hLowBound a ha haL).2

/-- Example stack-allocation list with sizes/alignments 16, 4 and 1 (the
spec's `[(4,4), (1,1), (16,16)]` example, in the container's
largest-alignment-first order). -/
def exStackAllocations : List StackAllocation :=
  [{ size := 16, alignment := 16 }, { size := 4, alignment := 4 }, { size := 1, alignment := 1 }]

/-- Example list after offset assignment. -/
def exStackPlaced : List StackAllocation := calculateStackOffsets 0 exStackAllocations

theorem c7_calculateStackSize_witness :
    calculateStackSize exStackPlaced = claimStackSize exStackPlaced ∧
    calculateStackSize exStackPlaced % 8 = 0 :=
  c7_calculateStackSize exStackPlaced (by decide)

theorem c8_calculateStackOffsets_witness :
    List.Pairwise (fun a b => a.offset + a.size ≤ b.offset ∨ b.offset + b.size ≤ a.offset)
      (calculateStackOffsets 0 exStackAllocations) ∧
    ∀ a ∈ calculateStackOffsets 0 exStackAllocations, (0 + a.offset) % a.alignment = 0 :=
  c8_calculateStackOffsets 0 exStackAllocations (by decide)

/-! ## Constant folding (`foldConstants`, `optimization/Eliminator.cpp`) -/

/-- Representative set of ALU op-codes for constant folding.  Their
evaluation (`OpCode::calculate`, reached through
`IntermediateInstruction::precalculate`) is not part of the staged sources;
it is modelled from the spec's "directly evaluating the op-code on those
literals" over 32-bit values. -/
inductive AluOp
  | opAnd
  | opOr
  | opXor
  | opAdd
  | opShl
  | opNot
  deriving DecidableEq

/-- Evaluation of one modelled op-code on 32-bit operand values.  Modelled
from the spec: bitwise operations act bitwise, addition wraps modulo
`2 ^ 32`, shifts use the low five bits of the offset (VideoCore ALU
semantics), NOT is bitwise complement of the first operand. -/
def AluOp.eval : AluOp → Nat → Nat → Nat
  | .opAnd, a, b => a &&& b
  | .opOr, a, b => a ||| b
  | .opXor, a, b => a ^^^ b
  | .opAdd, a, b => (a + b) % 2 ^ 32
  | .opShl, a, b => a <<< (b % 32) % 2 ^ 32
  | .opNot, a, _ => a ^^^ (2 ^ 32 - 1)

/-- Argument `Value` of an operation, as far as `foldConstants` inspects
one: a direct literal, a local whose compile-time constant (if any) was
resolved through `getConstantValue`/`getLiteralValue`, or something else
(register, undefined). -/
inductive FArg
  | lit (n : Nat)
  | localArg (l : Nat) (resolved : Option Nat)
  | otherArg
  deriving DecidableEq

/-- Compile-time literal an argument resolves to
(`getConstantValue() & &Value::getLiteralValue`). -/
def FArg.resolveLit : FArg → Option Nat
  | .lit n => some n
  | .localArg _ r => r
  | .otherArg => none

/-- Model of an `Operation` instruction with the fields `foldConstants`
reads: op-code, up to two arguments, flag setting, pack/unpack modifiers,
conditional execution and the `CONSTANT_LOAD` decoration. -/
structure FOperation where
  op : AluOp
  arg0 : FArg
  arg1 : Option FArg := none
  setFlags : Bool := false
  packMode : Bool := false
  unpackMode : Bool := false
  conditional : Bool := false
  constantLoad : Bool := false
  deriving DecidableEq

/-- Result of `foldConstants` on one instruction: left unchanged, or
replaced by a `MoveOperation` of the precomputed literal. -/
inductive FoldResult
  | unchanged (instr : FOperation)
  | replacedWithMove (v : Nat)
  deriving DecidableEq

/-- `precalculate` of an operation whose arguments resolve to literals:
evaluate the op-code (one-argument op-codes ignore the second operand). -/
def FOperation.precalculate (instr : FOperation) : Option Nat :=
  match instr.arg0.resolveLit, instr.arg1 with
  | some a, none => some (instr.op.eval a a)
  | some a, some b =>
    match b.resolveLit with
    | some bv => some (instr.op.eval a bv)
    | none => none
  | none, _ => none

/-- Translation of `optimizations::foldConstants`: an operation that sets no
flags and has no pack/unpack modifier, whose operands all resolve to
compile-time literals, is replaced by a move of the precomputed literal;
the conditional self-XOR pattern and instructions decorated as constant
loads are deliberately left unchanged. -/
def foldConstants (instr : FOperation) : FoldResult :=
  if instr.setFlags = false ∧ instr.unpackMode = false ∧ instr.packMode = false then
    if (instr.arg0.resolveLit.isSome ∧
        (instr.arg1.isNone ∨ (instr.arg1.bind FArg.resolveLit).isSome)) then
      if instr.conditional = true ∧ instr.op = .opXor ∧ instr.arg1 = some instr.arg0 then
        .unchanged instr
      else if instr.constantLoad = true then
        .unchanged instr
      else
        match instr.precalculate with
        | some v => .replacedWithMove v
        | none => .unchanged instr
    else
      .unchanged instr
  else
    .unchanged instr

/-- C6: every two-operand operation with no flag setting and no pack/unpack
modifier whose operands resolve to literals `la` and `lb` is folded to a
move of exactly `op.eval la lb` — unless it is the conditional self-XOR
pattern or carries the constant-load decoration, which are the only
exceptions. -/
theorem c6_foldConstants (instr : FOperation) (la lb : Nat) (b : FArg)
    (hflags : instr.setFlags = false)
    (hunpack : instr.unpackMode = false)
    (hpack : instr.packMode = false)
    (ha : instr.arg0.resolveLit = some la)
    (hb1 : instr.arg1 = some b)
    (hb2 : b.resolveLit = some lb)
    (hxor : ¬(instr.conditional = true ∧ instr.op = .opXor ∧ instr.arg1 = some instr.arg0))
    (hload : instr.constantLoad = false) :
    foldConstants instr = .replacedWithMove (instr.op.eval la lb) := by
  unfold foldConstants
  rw [if_pos ⟨hflags, hunpack, hpack⟩]
  rw [if_pos ⟨by simp [ha], Or.inr (by simp [hb1, hb2])⟩]
  rw [if_neg hxor]
  rw [if_neg (by simp [hload])]
  have hprecalc : instr.precalculate = some (instr.op.eval la lb) := by
    simp [FOperation.precalculate, ha, hb1, hb2]
  rw [hprecalc]

theorem c6_foldConstants_witness :
    foldConstants { op := .opAnd, arg0 := .lit 0xFF, arg1 := some (.lit 0x0F) } =
      .replacedWithMove 0x0F ∧ AluOp.eval .opAnd 0xFF 0x0F = 0x0F :=
  ⟨c6_foldConstants { op := .opAnd, arg0 := .lit 0xFF, arg1 := some (.lit 0x0F) } 0xFF 0x0F
      (.lit 0x0F) rfl rfl rfl rfl rfl rfl (by decide) rfl,
    by decide⟩

/-! ## Cross-work-item memory dependency analysis
(`hasOnlyAddressesDerivateOfLocalId`, `mayHaveCrossWorkItemMemoryDependency`,
`normalization/MemoryAccess.cpp`) -/

/-- Memory access types of `MemoryAccessType` that the analysis
distinguishes (the four safe cases of the `switch` plus the two shared
read-write cases this file mentions). -/
inductive MemoryAccessType
  | RAM_LOAD_TMU
  | QPU_REGISTER_READONLY
  | QPU_REGISTER_READWRITE
  | VPM_PER_QPU
  | VPM_SHARED_ACCESS
  | RAM_READ_WRITE_VPM
  deriving DecidableEq

/-- Operation kind of a `MemoryInstruction`. -/
inductive MemOp
  | read
  | write
  | copy
  | fill
  deriving DecidableEq

/-- Fields of the `MemoryInstruction` behind `range.addressWrite` that the
analysis reads: its operation kind and the vector widths of its destination
and source element types. -/
structure MemInstrM where
  op : MemOp
  destElementVectorWidth : Nat := 1
  srcElementVectorWidth : Nat := 1
  deriving DecidableEq

/-- Codes of the recursive `Expression` the analysis recognises:
`Expression::FAKEOP_UMUL`, `OP_MUL24`, `OP_SHL`, anything else. -/
inductive ExprCode
  | fakeUmul
  | mul24
  | shl
  | otherCode
  deriving DecidableEq

/-- Argument of such an expression: a nested expression (with the result of
`checkIdDecoration` on its decorations), a constant with a literal value,
or anything else.  Modelled from the spec: `Expression` and
`createRecursiveExpression` are not part of the staged sources; the spec
describes the recognised shape as "a multiplication (or left-shift) of an
identity value by a constant factor". -/
inductive ExprArg
  | subExpr (idDecorated : Bool)
  | litArg (v : Nat)
  | otherArg
  deriving DecidableEq

/-- Modelled `Expression`: code and two arguments. -/
structure ExprM where
  code : ExprCode
  arg0 : ExprArg
  arg1 : ExprArg
  deriving DecidableEq

/-- Whether an expression argument is a sub-expression carrying a
work-item/work-group id decoration (`checkIdDecoration` on
`arg.checkExpression()->deco`). -/
def ExprArg.isIdExpr : ExprArg → Bool
  | .subExpr d => d
  | _ => false

/-- Literal value of an expression argument (`arg.getLiteralValue()`). -/
def ExprArg.litValue : ExprArg → Option Nat
  | .litArg v => some v
  | _ => none

/-- `Expression::hasConstantOperand`, modelled from the spec: one of the two
arguments is a constant. -/
def ExprM.hasConstantOperand (e : ExprM) : Bool :=
  (e.arg0.litValue).isSome || (e.arg1.litValue).isSome

/-- One recorded dynamic address part: the result of `checkIdDecoration` on
its decorations, and the recursive expression of its single writer when one
could be built. -/
structure AddressPart where
  idDecorated : Bool := false
  writerExpression : Option ExprM := none
  deriving DecidableEq

/-- One `MemoryAccessRange`: its dynamic address parts, the
`MemoryInstruction` of its address write (when it is one), and the vector
width of the memory object's element type. -/
structure MemoryAccessRangeM where
  dynamicAddressParts : List AddressPart := []
  memWrite : Option MemInstrM := none
  objectElementVectorWidth : Nat := 1
  deriving DecidableEq

/-- `MemoryInfo` as the analysis reads it: the resolved access type and the
optional list of recorded access ranges. -/
structure MemoryInfoM where
  type : MemoryAccessType
  ranges : Option (List MemoryAccessRangeM) := none
  deriving DecidableEq

/-- Memory object fields behind the early constant test of
`mayHaveCrossWorkItemMemoryDependency`: whether it is a constant `Global`
and whether it is a `Parameter` decorated read-only. -/
structure MemObjectM where
  isConstantGlobal : Bool := false
  isReadOnlyParameter : Bool := false
  deriving DecidableEq

/-- `std::numeric_limits<unsigned>::max()`. -/
def UINT_MAX : Nat := 4294967295

/-- Check of one dynamic address part, threading the `(minFactor, maxSize)`
accumulator of `hasOnlyAddressesDerivateOfLocalId`; `none` when the part
fails the test.  An id-decorated part contributes the memory object's
element width to both bounds; otherwise the single writer's expression must
be a `umul`/`mul24`/`shl` of an id-decorated sub-expression by a constant,
contributing the constant factor (for `shl`, `1 << c`; the C++ shift is
undefined for `c ≥ 32`, modelled as wrapping) and the access's element
width on the side of the memory operation. -/
def checkAddressPart (range : MemoryAccessRangeM) (st : Nat × Nat) (part : AddressPart) :
    Option (Nat × Nat) :=
  if part.idDecorated then
    some (min st.1 range.objectElementVectorWidth, max st.2 range.objectElementVectorWidth)
  else
    match range.memWrite with
    | none => none
    | some memWrite =>
      match part.writerExpression with
      | none => none
      | some expression =>
        if expression.hasConstantOperand ∧
            (expression.code = .fakeUmul ∨ expression.code = .mul24 ∨ expression.code = .shl) then
          let leftIsId := expression.arg0.isIdExpr
          let rightIsId := expression.arg1.isIdExpr
          let constantArg := if leftIsId then expression.arg1.litValue else expression.arg0.litValue
          match constantArg with
          | none => none
          | some c =>
            if leftIsId ≠ rightIsId then
              let factor := if expression.code = .shl then 1 <<< c % 2 ^ 32 else c
              match memWrite.op with
              | .read => some (min st.1 factor, max st.2 memWrite.destElementVectorWidth)
              | .write => some (min st.1 factor, max st.2 memWrite.srcElementVectorWidth)
              | _ => none
            else none
        else none

/-- Translation of `hasOnlyAddressesDerivateOfLocalId`: the range passes
when its dynamic address parts are non-empty and every part passes
`checkAddressPart`, threading the accumulator; `none` stands for the C++
`false` with the accumulator discarded (the caller then ignores it). -/
def hasOnlyAddressesDerivateOfLocalId (range : MemoryAccessRangeM) (st : Nat × Nat) :
    Option (Nat × Nat) :=
  if range.dynamicAddressParts.isEmpty then none
  else range.dynamicAddressParts.foldlM (checkAddressPart range) st

/-- Translation of `mayHaveCrossWorkItemMemoryDependency`: constant memory
and the load-only/register/per-lane access types can never create a
cross-item hazard; for the remaining (shared read-write) types, every
recorded range must pass the address-derivation test and the accumulated
maximum accessed width must not exceed the accumulated minimum factor,
otherwise the object is conservatively hazardous (also when no ranges were
recorded at all). -/
def mayHaveCrossWorkItemMemoryDependency (memoryObject : MemObjectM) (info : MemoryInfoM) :
    Bool :=
  if memoryObject.isConstantGlobal || memoryObject.isReadOnlyParameter then false
  else
    match info.type with
    | .RAM_LOAD_TMU => false
    | .QPU_REGISTER_READONLY => false
    | .QPU_REGISTER_READWRITE => false
    | .VPM_PER_QPU => false
    | _ =>
      match info.ranges with
      | some ranges =>
        match ranges.foldlM (fun st r => hasOnlyAddressesDerivateOfLocalId r st) (UINT_MAX, 0) with
        | some st => if st.2 ≤ st.1 then false else true
        | none => true
      | none => true

/-- Factor and width one dynamic address expression contributes, per claim
C2's wording: an identity value contributes the object's element width on
both sides; a multiplication/shift of an identity value by a constant
contributes the constant factor and the memory operation's element width;
`none` when the expression has neither shape. -/
def claimPartData (range : MemoryAccessRangeM) (part : AddressPart) : Option (Nat × Nat) :=
  if part.idDecorated then
    some (range.objectElementVectorWidth, range.objectElementVectorWidth)
  else
    match range.memWrite with
    | none => none
    | some memWrite =>
      match part.writerExpression with
      | none => none
      | some expression =>
        if expression.hasConstantOperand ∧
            (expression.code = .fakeUmul ∨ expression.code = .mul24 ∨ expression.code = .shl) then
          let leftIsId := expression.arg0.isIdExpr
          let rightIsId := expression.arg1.isIdExpr
          let constantArg := if leftIsId then expression.arg1.litValue else expression.arg0.litValue
          match constantArg with
          | none => none
          | some c =>
            if leftIsId ≠ rightIsId then
              let factor := if expression.code = .shl then 1 <<< c % 2 ^ 32 else c
              match memWrite.op with
              | .read => some (factor, memWrite.destElementVectorWidth)
              | .write => some (factor, memWrite.srcElementVectorWidth)
              | _ => none
            else none
        else none

/-- Validity of one recorded range per the claim: it has at least one
dynamic address expression and every expression is an identity value or a
constant multiple of one. -/
def rangeExprsValid (r : MemoryAccessRangeM) : Bool :=
  !r.dynamicAddressParts.isEmpty &&
    r.dynamicAddressParts.all fun p => (claimPartData r p).isSome

/-- Factors contributed by all expressions of all ranges. -/
def allFactors (rs : List MemoryAccessRangeM) : List Nat :=
  (rs.map fun r => (r.dynamicAddressParts.filterMap (claimPartData r)).map Prod.fst).flatten

/-- Widths touched by all expressions of all ranges. -/
def allWidths (rs : List MemoryAccessRangeM) : List Nat :=
  (rs.map fun r => (r.dynamicAddressParts.filterMap (claimPartData r)).map Prod.snd).flatten

/-- Hazard-freedom exactly as claim C2 words it: at least one recorded
dynamic address expression, every expression an identity value or a
constant multiple of one, and the maximum touched width at most the minimum
factor. -/
def claimC2HazardFree (info : MemoryInfoM) : Bool :=
  match info.ranges with
  | none => false
  | some rs =>
    !(rs.map fun r => r.dynamicAddressParts).flatten.isEmpty &&
      rs.all rangeExprsValid &&
      decide ((allWidths rs).foldr max 0 ≤ (allFactors rs).foldr min UINT_MAX)

/-- Hazard-freedom as the code computes it, in the claim's vocabulary (the
amendment drops the "at least one expression" requirement at the level of
the whole object: an object whose recorded range list is empty is
vacuously hazard-free; each individual range must still own at least one
expression). -/
def claimC2HazardFreeAmended (info : MemoryInfoM) : Bool :=
  match info.ranges with
  | none => false
  | some rs =>
    rs.all rangeExprsValid &&
      decide ((allWidths rs).foldr max 0 ≤ (allFactors rs).foldr min UINT_MAX)

theorem foldr_min_swap : ∀ (l : List Nat) (a b : Nat), l.foldr min (min a b) = min b (l.foldr min a)
  | [], a, b => min_comm a b
  | x :: t, a, b => by
    simp only [List.foldr_cons]
    rw [foldr_min_swap t a b, min_left_comm]

theorem foldr_max_swap : ∀ (l : List Nat) (a b : Nat), l.foldr max (max a b) = max b (l.foldr max a)
  | [], a, b => max_comm a b
  | x :: t, a, b => by
    simp only [List.foldr_cons]
    rw [foldr_max_swap t a b, max_left_comm]

theorem foldr_min_comm : ∀ (A B : List Nat) (c : Nat),
    A.foldr min (B.foldr min c) = B.foldr min (A.foldr min c)
  | [], _, _ => rfl
  | x :: A2, B, c => by
    simp only [List.foldr_cons]
    rw [foldr_min_comm A2 B c, min_comm x (A2.foldr min c)]
    exact (foldr_min_swap B (A2.foldr min c) x).symm

theorem foldr_max_comm : ∀ (A B : List Nat) (c : Nat),
    A.foldr max (B.foldr max c) = B.foldr max (A.foldr max c)
  | [], _, _ => rfl
  | x :: A2, B, c => by
    simp only [List.foldr_cons]
    rw [foldr_max_comm A2 B c, max_comm x (A2.foldr max c)]
    exact (foldr_max_swap B (A2.foldr max c) x).symm

theorem checkAddressPart_eq_map (range : MemoryAccessRangeM) (st : Nat × Nat)
    (part : AddressPart) :
    checkAddressPart range st part =
      (claimPartData range part).map fun fw => (min st.1 fw.1, max st.2 fw.2) := by
  simp only [checkAddressPart, claimPartData]
  split_ifs with h1
  · rfl
  · cases range.memWrite with
    | none => rfl
    | some mw =>
      cases part.writerExpression with
      | none => rfl
      | some e =>
        dsimp only
        by_cases h2 : e.hasConstantOperand = true ∧
            (e.code = ExprCode.fakeUmul ∨ e.code = ExprCode.mul24 ∨ e.code = ExprCode.shl)
        · rw [if_pos h2, if_pos h2]
          cases hc : (if e.arg0.isIdExpr = true then e.arg1.litValue else e.arg0.litValue) with
          | none => rfl
          | some c =>
            dsimp only
            by_cases h3 : e.arg0.isIdExpr ≠ e.arg1.isIdExpr
            · rw [if_pos h3, if_pos h3]
              cases mw.op <;> rfl
            · rw [if_neg h3, if_neg h3]
              rfl
        · rw [if_neg h2, if_neg h2]
          rfl

theorem foldlM_checkAddressPart (range : MemoryAccessRangeM) :
    ∀ (parts : List AddressPart) (st : Nat × Nat),
      parts.foldlM (checkAddressPart range) st =
        if parts.all (fun p => (claimPartData range p).isSome) then
          some (((parts.filterMap (claimPartData range)).map Prod.fst).foldr min st.1,
                ((parts.filterMap (claimPartData range)).map Prod.snd).foldr max st.2)
        else none := by
  intro parts
  induction parts with
  | nil => intro st; simp
  | cons p ps ih =>
    intro st
    rw [List.foldlM_cons, checkAddressPart_eq_map]
    cases hp : claimPartData range p with
    | none => simp [hp]
    | some fw =>
      have hfm : (p :: ps).filterMap (claimPartData range) =
          fw :: ps.filterMap (claimPartData range) := by
        simp [List.filterMap_cons, hp]
      simp only [Option.map_some']
      show List.foldlM (checkAddressPart range) (st.1 ⊓ fw.1, st.2 ⊔ fw.2) ps = _
      rw [ih]
      by_cases hall : ps.all (fun p => (claimPartData range p).isSome)
      · rw [if_pos hall, if_pos (by simp [List.all_cons, hp, hall])]
        rw [hfm]
        simp only [List.map_cons, List.foldr_cons]
        rw [foldr_min_swap, foldr_max_swap]
      · rw [if_neg hall, if_neg (by simp [List.all_cons, hall])]

theorem foldlM_hasOnlyAddresses (rs : List MemoryAccessRangeM) :
    ∀ st : Nat × Nat,
      rs.foldlM (fun st r => hasOnlyAddressesDerivateOfLocalId r st) st =
        if rs.all rangeExprsValid then
          some ((allFactors rs).foldr min st.1, (allWidths rs).foldr max st.2)
        else none := by
  induction rs with
  | nil => intro st; simp [allFactors, allWidths]
  | cons r rest ih =>
    intro st
    rw [List.foldlM_cons]
    by_cases hemp : r.dynamicAddressParts.isEmpty
    · simp [hasOnlyAddressesDerivateOfLocalId, hemp, rangeExprsValid]
    · rw [show hasOnlyAddressesDerivateOfLocalId r st =
          r.dynamicAddressParts.foldlM (checkAddressPart r) st from by
        simp [hasOnlyAddressesDerivateOfLocalId, hemp]]
      rw [foldlM_checkAddressPart]
      by_cases hvalid : r.dynamicAddressParts.all (fun p => (claimPartData r p).isSome)
      · rw [if_pos hvalid]
        show List.foldlM (fun st r => hasOnlyAddressesDerivateOfLocalId r st)
          (((r.dynamicAddressParts.filterMap (claimPartData r)).map Prod.fst).foldr min st.1,
           ((r.dynamicAddressParts.filterMap (claimPartData r)).map Prod.snd).foldr max st.2)
          rest = _
        rw [ih]
        have hrv : rangeExprsValid r = true := by
          simp [rangeExprsValid, hemp, hvalid]
        by_cases hall : rest.all rangeExprsValid
        · rw [if_pos hall, if_pos (by simp [List.all_cons, hrv, hall])]
          have hf : allFactors (r :: rest) =
              ((r.dynamicAddressParts.filterMap (claimPartData r)).map Prod.fst) ++
                allFactors rest := by
            simp [allFactors]
          have hw : allWidths (r :: rest) =
              ((r.dynamicAddressParts.filterMap (claimPartData r)).map Prod.snd) ++
                allWidths rest := by
            simp [allWidths]
          rw [hf, hw, List.foldr_append, List.foldr_append]
          rw [foldr_min_comm (allFactors rest), foldr_max_comm (allWidths rest)]
        · rw [if_neg hall, if_neg (by simp [List.all_cons, hall])]
      · rw [if_neg hvalid]
        have hrv : rangeExprsValid r = false := by
          simp only [rangeExprsValid, Bool.and_eq_false_iff]
          right
          simpa using hvalid
        show (none : Option (Nat × Nat)) = _
        rw [if_neg (by simp [List.all_cons, hrv])]

/-- C2 counterexample: a shared read-write memory object whose recorded
range list is present but empty has no dynamic address expression at all,
so the claim's condition ("it has at least one recorded dynamic address
expression ...") fails and the claim calls it hazardous — yet
`mayHaveCrossWorkItemMemoryDependency` vacuously accepts the empty range
list and classifies it hazard-free. -/
theorem c2_mayHaveCrossWorkItemMemoryDependency_counterexample :
    mayHaveCrossWorkItemMemoryDependency { }
        { type := .VPM_SHARED_ACCESS, ranges := some [] } = false ∧
    claimC2HazardFree { type := .VPM_SHARED_ACCESS, ranges := some [] } = false := by
  constructor <;> rfl

/-- C2 (amended): objects classified load-only, register-resident or
per-lane-private are always hazard-free; and a non-constant object with a
shared read-write classification is hazard-free if and only if its range
list is recorded, every recorded range has at least one dynamic address
expression each of which is an identity value or a constant multiple of
one, and the maximum touched element width does not exceed the minimum
factor — in particular, a present-but-empty range list is vacuously
hazard-free. -/
theorem c2_mayHaveCrossWorkItemMemoryDependency_amended :
    (∀ (obj : MemObjectM) (info : MemoryInfoM),
      (info.type = .RAM_LOAD_TMU ∨ info.type = .QPU_REGISTER_READONLY ∨
        info.type = .QPU_REGISTER_READWRITE ∨ info.type = .VPM_PER_QPU) →
      mayHaveCrossWorkItemMemoryDependency obj info = false) ∧
    (∀ (obj : MemObjectM) (info : MemoryInfoM),
      obj.isConstantGlobal = false → obj.isReadOnlyParameter = false →
      (info.type = .VPM_SHARED_ACCESS ∨ info.type = .RAM_READ_WRITE_VPM) →
      (mayHaveCrossWorkItemMemoryDependency obj info = false ↔
        claimC2HazardFreeAmended info = true)) := by
  constructor
  · intro obj info htype
    simp only [mayHaveCrossWorkItemMemoryDependency]
    rcases htype with h | h | h | h <;> rw [h] <;> split_ifs <;> rfl
  · intro obj info h1 h2 htype
    simp only [mayHaveCrossWorkItemMemoryDependency, h1, h2, Bool.or_self, if_false]
    have hred : (match info.type with
        | MemoryAccessType.RAM_LOAD_TMU => false
        | MemoryAccessType.QPU_REGISTER_READONLY => false
        | MemoryAccessType.QPU_REGISTER_READWRITE => false
        | MemoryAccessType.VPM_PER_QPU => false
        | _ =>
          match info.ranges with
          | some ranges =>
            match ranges.foldlM (fun st r => hasOnlyAddressesDerivateOfLocalId r st)
                (UINT_MAX, 0) with
            | some st => if st.2 ≤ st.1 then false else true
            | none => true
          | none => true) =
        (match info.ranges with
          | some ranges =>
            match ranges.foldlM (fun st r => hasOnlyAddressesDerivateOfLocalId r st)
                (UINT_MAX, 0) with
            | some st => if st.2 ≤ st.1 then false else true
            | none => true
          | none => true) := by
      rcases htype with h | h <;> rw [h]
    rw [hred]
    rw [if_neg Bool.false_ne_true]
    cases hr : info.ranges with
    | none => simp [claimC2HazardFreeAmended, hr]
    | some rs =>
      dsimp only
      rw [foldlM_hasOnlyAddresses]
      simp only [claimC2HazardFreeAmended, hr]
      by_cases hall : rs.all rangeExprsValid
      · rw [if_pos hall]
        simp only [hall, Bool.true_and]
        by_cases hle : (allWidths rs).foldr max 0 ≤ (allFactors rs).foldr min UINT_MAX
        · simp [hle]
        · simp [hle]
      · rw [if_neg hall]
        simp [hall]

/-- Example range whose only dynamic address expression is
`global_id * 4`, read with element width `w`. -/
def exIdTimesFourRange (w : Nat) : MemoryAccessRangeM :=
  { dynamicAddressParts :=
      [{ idDecorated := false,
         writerExpression := some { code := .fakeUmul, arg0 := .subExpr true, arg1 := .litArg 4 } }],
    memWrite := some { op := .read, destElementVectorWidth := w, srcElementVectorWidth := w },
    objectElementVectorWidth := w }

theorem c2_mayHaveCrossWorkItemMemoryDependency_witness :
    mayHaveCrossWorkItemMemoryDependency { }
        { type := .VPM_SHARED_ACCESS, ranges := some [exIdTimesFourRange 4] } = false ∧
    mayHaveCrossWorkItemMemoryDependency { }
        { type := .VPM_SHARED_ACCESS, ranges := some [exIdTimesFourRange 8] } = true := by
  constructor
  · exact (c2_mayHaveCrossWorkItemMemoryDependency_amended.2 { }
      { type := .VPM_SHARED_ACCESS, ranges := some [exIdTimesFourRange 4] }
      rfl rfl (Or.inl rfl)).mpr (by decide)
  · have h := c2_mayHaveCrossWorkItemMemoryDependency_amended.2 { }
      { type := .VPM_SHARED_ACCESS, ranges := some [exIdTimesFourRange 8] }
      rfl rfl (Or.inl rfl)
    cases hm : mayHaveCrossWorkItemMemoryDependency { }
      { type := .VPM_SHARED_ACCESS, ranges := some [exIdTimesFourRange 8] }
    · exact absurd (h.mp hm) (by decide)
    · rfl

/-! ## Dead-code elimination (`eliminateDeadCode`, `optimization/Eliminator.cpp`)

The pass walks every instruction with an `InstructionWalker`, erasing dead
instructions; after a rule-1 deletion the cursor steps back one position
(`it.previousInBlock()`), the other deletions continue at the following
instruction.  The walk is modelled as a cursor state: fully processed
blocks `prev`, the already-visited part of the current block `doneRev`
(reversed, most recent first), the rest of the current block `todo`, and
the remaining blocks `next`. -/

/-- Hardware registers the pass distinguishes: the `UNIFORM` read register,
`r5`/`acc5` and the two replication registers, and any other register. -/
inductive DReg
  | uniform
  | acc5
  | repQuad
  | repAll
  | gen (n : Nat)
  deriving DecidableEq

/-- Instruction argument: a local, a register, or a literal. -/
inductive DArg
  | loc (l : Nat)
  | reg (r : DReg)
  | lit (v : Int)
  deriving DecidableEq

/-- Instruction kinds relevant to the pass: the four supported output kinds
(`Operation`, `MoveOperation`, `LoadImmediate`, `CodeAddress`), labels, and
everything else (branches, memory instructions, ...). -/
inductive DKind
  | operation
  | move
  | load
  | address
  | label
  | other
  deriving DecidableEq

/-- Model of an `IntermediateInstruction` with the fields the pass reads:
an id (for bookkeeping only), kind, optional output local or register,
arguments, `hasSideEffects()`, `getSignal().hasSideEffects()`,
`hasConditionalExecution()` and `isSimpleMove()`. -/
structure DInstr where
  iid : Nat := 0
  kind : DKind
  outLoc : Option Nat := none
  outReg : Option DReg := none
  args : List DArg := []
  sideEffects : Bool := false
  signalSideEffects : Bool := false
  conditional : Bool := false
  simpleMove : Bool := true
  deriving DecidableEq

/-- `readsLocal`: some argument references the local. -/
def DInstr.readsLocal (i : DInstr) (l : Nat) : Bool :=
  i.args.any fun a => decide (a = DArg.loc l)

/-- `writesLocal`: the output is the local. -/
def DInstr.writesLocal (i : DInstr) (l : Nat) : Bool :=
  decide (i.outLoc = some l)

/-- `readsRegister`: some argument references the register. -/
def DInstr.readsRegister (i : DInstr) (r : DReg) : Bool :=
  i.args.any fun a => decide (a = DArg.reg r)

/-- `writesRegister`: the output is the register. -/
def DInstr.writesRegister (i : DInstr) (r : DReg) : Bool :=
  decide (i.outReg = some r)

/-- The "fail-fast" kind test of the pass: `Operation`, `MoveOperation`,
`LoadImmediate` or `CodeAddress`. -/
def DInstr.isOpMoveLoadAddress (i : DInstr) : Bool :=
  match i.kind with
  | .operation | .move | .load | .address => true
  | _ => false

/-- Method: the basic blocks (each a plain instruction list headed by its
label instruction), the `Parameter` locals, the `BuiltinLocal`s whose
kernel-uniform flag the pass knows how to clear, and the locals' data types
(for the type check of the local-merging branch). -/
structure DMethod where
  blocks : List (List DInstr)
  params : List Nat := []
  uniformBuiltins : List Nat := []
  locTypes : List (Nat × Nat) := []
  deriving DecidableEq

/-- All instructions of a block list, in order. -/
def joinBlocks (bs : List (List DInstr)) : List DInstr := bs.flatten

/-- Whether local `l` has a reader anywhere in the blocks
(`local->hasUsers(LocalUse::Type::READER)` under the use-tracking
invariant: the user map equals the set of live references). -/
def hasReaderIn (bs : List (List DInstr)) (l : Nat) : Bool :=
  (joinBlocks bs).any fun i => i.readsLocal l

/-- Whether local `l` has a writer anywhere in the blocks
(`local->hasUsers(LocalUse::Type::WRITER)`; note that the map includes the
instruction currently looked at). -/
def hasWriterIn (bs : List (List DInstr)) (l : Nat) : Bool :=
  (joinBlocks bs).any fun i => i.writesLocal l

/-- Data type of a local (`Local::type`), for the merge branch's
`inLoc->type == outLoc->type` check. -/
def lookupType (types : List (Nat × Nat)) (l : Nat) : Nat :=
  match types.find? fun p => decide (p.1 = l) with
  | some p => p.2
  | none => 0

/-- Membership in a local list (parameters, builtins). -/
def listHas (xs : List Nat) (x : Nat) : Bool :=
  xs.any fun y => decide (y = x)

/-- Whether the instruction writes one of `r5`/replicate-quad/replicate-all
(the special purpose registers of rule 2). -/
def specialRegWritten (i : DInstr) : Bool :=
  i.writesRegister .acc5 || i.writesRegister .repQuad || i.writesRegister .repAll

/-- Whether the instruction reads one of those registers. -/
def specialRegRead (i : DInstr) : Bool :=
  i.readsRegister .acc5 || i.readsRegister .repQuad || i.readsRegister .repAll

/-- Forward scan of rule 2 over the rest of the block: the register value
is unused if some special register is written again before any of them is
read; reading first, or reaching the end of the block, counts as used. -/
def scanSpecialRegUse : List DInstr → Bool
  | [] => true
  | i :: rest =>
    if specialRegWritten i then false
    else if specialRegRead i then true
    else scanSpecialRegUse rest

/-- Forward scan of rule 3 over the rest of the block: the first
instruction that reads local `l`, or writes it unconditionally. -/
def scanOverwrite (l : Nat) : List DInstr → Option DInstr
  | [] => none
  | i :: rest =>
    if i.readsLocal l then some i
    else if i.writesLocal l && !i.conditional then some i
    else scanOverwrite l rest

/-- Verdict of rule 3: delete when the scan stopped (did not fall off the
end of the block) at an instruction that does not read the local — i.e. at
an unconditional overwrite. -/
def overwriteDelete (l : Nat) (rest : List DInstr) : Bool :=
  match scanOverwrite l rest with
  | some stopInstr => !stopInstr.readsLocal l
  | none => false

/-- Action the pass takes on one instruction. -/
inductive DAction
  | deleteStepBack
  | mergeLocals (inl outl : Nat)
  | deleteGo
  | keep
  deriving DecidableEq

/-- Rule 3 of the pass ("remove unnecessary writes which are immediately
overwritten"): a supported side-effect-free write to a local that a
forward scan finds unconditionally overwritten before any read is erased,
continuing at the following instruction. -/
def dceRule3 (i : DInstr) (l : Nat) (rest : List DInstr) : DAction :=
  if i.isOpMoveLoadAddress && !i.sideEffects && overwriteDelete l rest then .deleteGo
  else .keep

/-- Decision of the pass's loop body on instruction `i` with `rest` behind
it in its block and `cur` the whole method as it currently stands,
following the C++ control flow: (1) a supported instruction writing a
non-parameter local with no side effects and no reader is erased with a
step back; otherwise a move from a local is merged when its output has no
writer at all (including the move itself — so this branch never fires) and
types match, and a signal-free move from the UNIFORM register onto an
unread builtin whose uniform flag the pass can clear is erased; (2) a
supported side-effect-free write to a special purpose register that is
overwritten before being read is erased; (3) `dceRule3`. -/
def dceDecide (pars unis : List Nat) (types : List (Nat × Nat)) (cur : List (List DInstr))
    (i : DInstr) (rest : List DInstr) : DAction :=
  match i.outLoc with
  | some l =>
    if i.isOpMoveLoadAddress && !i.sideEffects && !listHas pars l && !hasReaderIn cur l then
      .deleteStepBack
    else if i.kind = DKind.move then
      match i.args.head? with
      | some (DArg.loc inl) =>
        if i.simpleMove && !hasWriterIn cur l &&
            decide (lookupType types inl = lookupType types l) then
          .mergeLocals inl l
        else dceRule3 i l rest
      | some (DArg.reg DReg.uniform) =>
        if !i.signalSideEffects && listHas unis l && !hasReaderIn cur l then .deleteGo
        else dceRule3 i l rest
      | _ => dceRule3 i l rest
    else dceRule3 i l rest
  | none =>
    match i.outReg with
    | some _ =>
      if i.isOpMoveLoadAddress && !i.sideEffects && specialRegWritten i &&
          !scanSpecialRegUse rest then
        .deleteGo
      else .keep
    | none => .keep

/-- Argument rewrite of the local-merging branch: every reference to
`outl` among an instruction's arguments becomes `inl`
(`outLoc->forUsers(READER, ...)`). -/
def mergeRewrite (inl outl : Nat) (j : DInstr) : DInstr :=
  { j with args := j.args.map fun a => if a = DArg.loc outl then DArg.loc inl else a }

/-- Main loop of `eliminateDeadCode` over the cursor state, with a
structurally decreasing fuel (`dceFuel` below supplies more fuel than the
loop can consume, so the fuel-exhaustion arm is never taken).  `prev` holds
the finished blocks, `doneRev` the visited part of the current block in
reverse, `todo` the rest of the current block, `next` the remaining
blocks, and `changed` the accumulated `hasChanged` flag. -/
def dceRun (pars unis : List Nat) (types : List (Nat × Nat)) :
    Nat → List (List DInstr) → List DInstr → List DInstr → List (List DInstr) → Bool →
    List (List DInstr) × Bool
  | 0, prev, doneRev, todo, next, changed => (prev ++ [doneRev.reverse ++ todo] ++ next, changed)
  | fuel + 1, prev, doneRev, [], next, changed =>
    match next with
    | [] => (prev ++ [doneRev.reverse], changed)
    | b :: rest => dceRun pars unis types fuel (prev ++ [doneRev.reverse]) [] b rest changed
  | fuel + 1, prev, doneRev, i :: rest, next, changed =>
    match dceDecide pars unis types (prev ++ [doneRev.reverse ++ i :: rest] ++ next) i rest with
    | .deleteStepBack =>
      match doneRev with
      | [] => dceRun pars unis types fuel prev [] rest next true
      | d :: ds => dceRun pars unis types fuel prev ds (d :: rest) next true
    | .mergeLocals inl outl =>
      dceRun pars unis types fuel (prev.map (List.map (mergeRewrite inl outl)))
        (doneRev.map (mergeRewrite inl outl)) (rest.map (mergeRewrite inl outl))
        (next.map (List.map (mergeRewrite inl outl))) true
    | .deleteGo => dceRun pars unis types fuel prev doneRev rest next true
    | .keep => dceRun pars unis types fuel prev (i :: doneRev) rest next changed

/-- Fuel bound for `dceRun`: strictly larger than the measure `dcePhi`
below of the initial state. -/
def dceFuel (m : DMethod) : Nat :=
  (2 * (joinBlocks m.blocks).length + m.blocks.length) * ((joinBlocks m.blocks).length + 1) +
    (joinBlocks m.blocks).length + 1

/-- Translation of `optimizations::eliminateDeadCode`: walk all
instructions from the first block, applying the rules; returns the
rewritten method and whether anything changed (`cleanLocals()` at the end
of the C++ function is a no-op: its body is commented out). -/
def eliminateDeadCode (m : DMethod) : DMethod × Bool :=
  match m.blocks with
  | [] => (m, false)
  | b :: rest =>
    let r := dceRun m.params m.uniformBuiltins m.locTypes (dceFuel m) [] [] b rest false
    ({ m with blocks := r.1 }, r.2)

/-- Measure of a cursor state: total instruction count, remaining blocks
and remaining current-block length, combined so that every step of
`dceRun` strictly decreases it. -/
def dcePhi (prev : List (List DInstr)) (doneRev todo : List DInstr)
    (next : List (List DInstr)) : Nat :=
  (2 * ((joinBlocks prev).length + doneRev.length + todo.length + (joinBlocks next).length) +
      next.length) *
    ((joinBlocks prev).length + doneRev.length + todo.length + (joinBlocks next).length + 1) +
    todo.length

theorem mem_joinBlocks_three {y : DInstr} {prev next : List (List DInstr)} {X : List DInstr} :
    y ∈ joinBlocks (prev ++ [X] ++ next) ↔
      y ∈ joinBlocks prev ∨ y ∈ X ∨ y ∈ joinBlocks next := by
  simp only [joinBlocks, List.flatten_append, List.flatten_cons, List.flatten_nil,
    List.append_nil, List.mem_append]
  tauto

theorem dceDecide_ne_merge (pars unis : List Nat) (types : List (Nat × Nat))
    (prev : List (List DInstr)) (doneRev rest : List DInstr) (next : List (List DInstr))
    (i : DInstr) (inl outl : Nat) :
    dceDecide pars unis types (prev ++ [doneRev.reverse ++ i :: rest] ++ next) i rest ≠
      DAction.mergeLocals inl outl := by
  intro hcon
  have hmem : i ∈ joinBlocks (prev ++ [doneRev.reverse ++ i :: rest] ++ next) :=
    mem_joinBlocks_three.mpr (Or.inr (Or.inl (by simp)))
  unfold dceDecide at hcon
  cases hl : i.outLoc with
  | none =>
    rw [hl] at hcon
    dsimp only at hcon
    repeat' split at hcon
    all_goals simp_all
  | some l =>
    have hW : hasWriterIn (prev ++ [doneRev.reverse ++ i :: rest] ++ next) l = true := by
      simp only [hasWriterIn, List.any_eq_true]
      exact ⟨i, by simpa using hmem, by simp [DInstr.writesLocal, hl]⟩
    rw [hl] at hcon
    dsimp only at hcon
    rw [hW] at hcon
    simp only [dceRule3] at hcon
    repeat' split at hcon
    all_goals simp_all

theorem dceRun_subset (pars unis : List Nat) (types : List (Nat × Nat)) :
    ∀ (fuel : Nat) (prev : List (List DInstr)) (doneRev todo : List DInstr)
      (next : List (List DInstr)) (ch : Bool) (y : DInstr),
      y ∈ joinBlocks (dceRun pars unis types fuel prev doneRev todo next ch).1 →
      y ∈ joinBlocks prev ∨ y ∈ doneRev ∨ y ∈ todo ∨ y ∈ joinBlocks next := by
  intro fuel
  induction fuel with
  | zero =>
    intro prev doneRev todo next ch y hy
    rw [dceRun] at hy
    rcases mem_joinBlocks_three.mp hy with h | h | h
    · exact Or.inl h
    · rcases List.mem_append.mp h with h | h
      · exact Or.inr (Or.inl (List.mem_reverse.mp h))
      · exact Or.inr (Or.inr (Or.inl h))
    · exact Or.inr (Or.inr (Or.inr h))
  | succ fuel ih =>
    intro prev doneRev todo next ch y hy
    cases todo with
    | nil =>
      cases next with
      | nil =>
        simp only [dceRun] at hy
        rcases (show (∃ l ∈ prev, y ∈ l) ∨ y ∈ doneRev by simpa [joinBlocks] using hy) with h | h
        · exact Or.inl (by simp only [joinBlocks, List.mem_flatten]; exact h)
        · exact Or.inr (Or.inl h)
      | cons b bs =>
        simp only [dceRun] at hy
        rcases ih _ _ _ _ _ y hy with h | h | h | h
        · rcases (show (∃ l ∈ prev, y ∈ l) ∨ y ∈ doneRev by simpa [joinBlocks] using h) with h2 | h2
          · exact Or.inl (by simp only [joinBlocks, List.mem_flatten]; exact h2)
          · exact Or.inr (Or.inl h2)
        · exact absurd h (List.not_mem_nil y)
        · exact Or.inr (Or.inr (Or.inr (by simp [joinBlocks, h])))
        · exact Or.inr (Or.inr (Or.inr (by simp [joinBlocks]; right; simpa [joinBlocks] using h)))
    | cons i rest =>
      simp only [dceRun] at hy
      cases hdec : dceDecide pars unis types (prev ++ [doneRev.reverse ++ i :: rest] ++ next) i
          rest with
      | mergeLocals inl outl =>
        exact absurd hdec (dceDecide_ne_merge pars unis types prev doneRev rest next i inl outl)
      | deleteStepBack =>
        rw [hdec] at hy
        dsimp only at hy
        cases hdr : doneRev with
        | nil =>
          rw [hdr] at hy
          dsimp only at hy
          rcases ih _ _ _ _ _ y hy with h | h | h | h
          · exact Or.inl h
          · exact absurd h (List.not_mem_nil y)
          · exact Or.inr (Or.inr (Or.inl (List.mem_cons_of_mem i h)))
          · exact Or.inr (Or.inr (Or.inr h))
        | cons d ds =>
          rw [hdr] at hy
          dsimp only at hy
          rcases ih _ _ _ _ _ y hy with h | h | h | h
          · exact Or.inl h
          · exact Or.inr (Or.inl (by simp [hdr, h]))
          · rcases List.mem_cons.mp h with h2 | h2
            · exact Or.inr (Or.inl (by simp [hdr, h2]))
            · exact Or.inr (Or.inr (Or.inl (List.mem_cons_of_mem i h2)))
          · exact Or.inr (Or.inr (Or.inr h))
      | deleteGo =>
        rw [hdec] at hy
        dsimp only at hy
        rcases ih _ _ _ _ _ y hy with h | h | h | h
        · exact Or.inl h
        · exact Or.inr (Or.inl h)
        · exact Or.inr (Or.inr (Or.inl (List.mem_cons_of_mem i h)))
        · exact Or.inr (Or.inr (Or.inr h))
      | keep =>
        rw [hdec] at hy
        dsimp only at hy
        rcases ih _ _ _ _ _ y hy with h | h | h | h
        · exact Or.inl h
        · rcases List.mem_cons.mp h with h2 | h2
          · exact Or.inr (Or.inr (Or.inl (by simp [h2])))
          · exact Or.inr (Or.inl h2)
        · exact Or.inr (Or.inr (Or.inl (List.mem_cons_of_mem i h)))
        · exact Or.inr (Or.inr (Or.inr h))

theorem dceRun_changed_true (pars unis : List Nat) (types : List (Nat × Nat)) :
    ∀ (fuel : Nat) (prev : List (List DInstr)) (doneRev todo : List DInstr)
      (next : List (List DInstr)),
      (dceRun pars unis types fuel prev doneRev todo next true).2 = true := by
  intro fuel
  induction fuel with
  | zero => intro prev doneRev todo next; rfl
  | succ fuel ih =>
    intro prev doneRev todo next
    cases todo with
    | nil =>
      cases next with
      | nil => rfl
      | cons b bs => simp only [dceRun]; exact ih _ _ _ _
    | cons i rest =>
      simp only [dceRun]
      cases hdec : dceDecide pars unis types (prev ++ [doneRev.reverse ++ i :: rest] ++ next) i
          rest with
      | deleteStepBack =>
        cases doneRev with
        | nil => exact ih _ _ _ _
        | cons d ds => exact ih _ _ _ _
      | mergeLocals inl outl => exact ih _ _ _ _
      | deleteGo => exact ih _ _ _ _
      | keep => exact ih _ _ _ _

theorem dceRun_unchanged (pars unis : List Nat) (types : List (Nat × Nat)) :
    ∀ (fuel : Nat) (prev : List (List DInstr)) (doneRev todo : List DInstr)
      (next : List (List DInstr)),
      (dceRun pars unis types fuel prev doneRev todo next false).2 = false →
      (dceRun pars unis types fuel prev doneRev todo next false).1 =
        prev ++ [doneRev.reverse ++ todo] ++ next := by
  intro fuel
  induction fuel with
  | zero => intro prev doneRev todo next _; rfl
  | succ fuel ih =>
    intro prev doneRev todo next h
    cases todo with
    | nil =>
      cases next with
      | nil => simp [dceRun]
      | cons b bs =>
        simp only [dceRun] at h ⊢
        rw [ih _ _ _ _ h]
        simp
    | cons i rest =>
      simp only [dceRun] at h ⊢
      cases hdec : dceDecide pars unis types (prev ++ [doneRev.reverse ++ i :: rest] ++ next) i
          rest with
      | deleteStepBack =>
        rw [hdec] at h
        cases doneRev with
        | nil =>
          dsimp only at h
          rw [dceRun_changed_true] at h
          exact Bool.noConfusion h
        | cons d ds =>
          dsimp only at h
          rw [dceRun_changed_true] at h
          exact Bool.noConfusion h
      | mergeLocals inl outl =>
        rw [hdec] at h
        dsimp only at h
        rw [dceRun_changed_true] at h
        exact Bool.noConfusion h
      | deleteGo =>
        rw [hdec] at h
        dsimp only at h
        rw [dceRun_changed_true] at h
        exact Bool.noConfusion h
      | keep =>
        rw [hdec] at h
        dsimp only at h
        rw [ih _ _ _ _ h]
        simp

/-- Example label instruction heading a basic block. -/
def exLbl : DInstr := { iid := 0, kind := DKind.label }

/-- Example operation computing local `1` from local `3`. -/
def exDceI1 : DInstr :=
  { iid := 1, kind := DKind.operation, outLoc := some 1, args := [DArg.loc 3, DArg.loc 3] }

/-- Example move of local `1` into local `2` (immediately overwritten below). -/
def exDceI2 : DInstr := { iid := 2, kind := DKind.move, outLoc := some 2, args := [DArg.loc 1] }

/-- Example move of local `4` into local `2`, unconditionally overwriting the
previous write. -/
def exDceI3 : DInstr := { iid := 3, kind := DKind.move, outLoc := some 2, args := [DArg.loc 4] }

/-- Example move of local `2` into a plain hardware register. -/
def exDceI4 : DInstr :=
  { iid := 4, kind := DKind.move, outReg := some (DReg.gen 0), args := [DArg.loc 2] }

/-- Example method on which dead-code elimination is not idempotent: the
first run deletes the overwritten write `exDceI2` (continuing forward, not
stepping back), which makes `exDceI1` readerless; only the second run
deletes `exDceI1`. -/
def exDce : DMethod := { blocks := [[exLbl, exDceI1, exDceI2, exDceI3, exDceI4]] }

/-- Example single-label method that dead-code elimination leaves alone. -/
def exFix : DMethod := { blocks := [[exLbl]] }

/-- C5 counterexample: dead-code elimination is not idempotent.  On `exDce`
the first run deletes the write to local `2` that is unconditionally
overwritten (rule 3 continues at the following instruction instead of
stepping back), leaving the producer of local `1` without readers; the
second run then deletes that producer as well, so running the pass twice
yields a strictly smaller program than running it once. -/
theorem c5_eliminateDeadCode_counterexample :
    (eliminateDeadCode (eliminateDeadCode exDce).1).1 ≠ (eliminateDeadCode exDce).1 := by
  decide

/-- C5 (amended): the pass is stable exactly when it reports no change —
whenever `eliminateDeadCode` returns with the changed flag `false`, the
method is returned verbatim.  The optimizer iterates the pass on the
changed flag, so repetition reaches a fixpoint, but a single run is not
idempotent (see the counterexample). -/
theorem c5_eliminateDeadCode_amended (m : DMethod)
    (h : (eliminateDeadCode m).2 = false) :
    (eliminateDeadCode m).1 = m := by
  unfold eliminateDeadCode at h ⊢
  cases hb : m.blocks with
  | nil => rfl
  | cons b rest =>
    rw [hb] at h
    dsimp only at h ⊢
    have h2 := dceRun_unchanged m.params m.uniformBuiltins m.locTypes (dceFuel m) [] [] b rest h
    rw [h2]
    have h3 : ([] : List (List DInstr)) ++ [List.reverse [] ++ b] ++ rest = b :: rest := by simp
    rw [h3, ← hb]

theorem c5_eliminateDeadCode_witness :
    (eliminateDeadCode exFix).2 = false ∧ (eliminateDeadCode exFix).1 = exFix :=
  ⟨by decide, c5_eliminateDeadCode_amended exFix (by decide)⟩

theorem overwriteDelete_iff (l : Nat) : ∀ rest : List DInstr,
    overwriteDelete l rest = true ↔
      ∃ pre j post, rest = pre ++ j :: post ∧ j.writesLocal l = true ∧ j.conditional = false ∧
        j.readsLocal l = false ∧
        ∀ x ∈ pre, x.readsLocal l = false ∧ (x.writesLocal l = true → x.conditional = true) := by
  intro rest
  induction rest with
  | nil =>
    constructor
    · intro h
      simp [overwriteDelete, scanOverwrite] at h
    · rintro ⟨pre, j, post, heq, -⟩
      cases pre <;> simp at heq
  | cons i rest ih =>
    cases hr : i.readsLocal l with
    | true =>
      constructor
      · intro h
        simp [overwriteDelete, scanOverwrite, hr] at h
      · rintro ⟨pre, j, post, heq, hjw, hjc, hjr, hpre⟩
        exfalso
        cases pre with
        | nil =>
          simp only [List.nil_append] at heq
          injection heq with h1 h2
          rw [← h1] at hjr
          rw [hjr] at hr
          exact Bool.noConfusion hr
        | cons a pre2 =>
          simp only [List.cons_append] at heq
          injection heq with h1 h2
          have hA := (hpre a (List.mem_cons_self a pre2)).1
          rw [← h1] at hA
          rw [hA] at hr
          exact Bool.noConfusion hr
    | false =>
      cases hw : (i.writesLocal l && !i.conditional) with
      | true =>
        have hw12 : i.writesLocal l = true ∧ i.conditional = false := by simpa using hw
        constructor
        · intro _
          exact ⟨[], i, rest, rfl, hw12.1, hw12.2, hr, by simp⟩
        · intro _
          simp [overwriteDelete, scanOverwrite, hr, hw]
      | false =>
        have hstep : overwriteDelete l (i :: rest) = overwriteDelete l rest := by
          simp [overwriteDelete, scanOverwrite, hr, hw]
        rw [hstep, ih]
        constructor
        · rintro ⟨pre, j, post, heq, hjw, hjc, hjr, hpre⟩
          refine ⟨i :: pre, j, post, by rw [heq, List.cons_append], hjw, hjc, hjr, ?_⟩
          intro x hx
          rcases List.mem_cons.mp hx with rfl | hx2
          · refine ⟨hr, ?_⟩
            intro hxw
            cases hcnd : x.conditional with
            | false =>
              rw [hxw, hcnd] at hw
              simp at hw
            | true => rfl
          · exact hpre x hx2
        · rintro ⟨pre, j, post, heq, hjw, hjc, hjr, hpre⟩
          cases pre with
          | nil =>
            simp only [List.nil_append] at heq
            injection heq with h1 h2
            rw [← h1] at hjw hjc
            rw [hjw, hjc] at hw
            simp at hw
          | cons a pre2 =>
            simp only [List.cons_append] at heq
            injection heq with h1 h2
            exact ⟨pre2, j, post, h2, hjw, hjc, hjr, fun x hx => hpre x (by simp [hx])⟩

/-- C3 (amended): the forward-scan deletion rule removes a supported
side-effect-free write to a local exactly when the scan finds an
unconditional overwrite of the local before any read of it: some later
instruction of the block writes the local unconditionally without reading
it, and every instruction strictly between does not read the local and
only writes it conditionally.  A write whose local is simply never read
before the end of the block (the scan falls off the block) is kept by this
rule. -/
theorem c3_deadStoreElimination_amended (i : DInstr) (l : Nat) (rest : List DInstr) :
    dceRule3 i l rest = DAction.deleteGo ↔
      (i.isOpMoveLoadAddress = true ∧ i.sideEffects = false ∧
        ∃ pre j post, rest = pre ++ j :: post ∧ j.writesLocal l = true ∧ j.conditional = false ∧
          j.readsLocal l = false ∧
          ∀ x ∈ pre, x.readsLocal l = false ∧ (x.writesLocal l = true → x.conditional = true)) := by
  have hbase : dceRule3 i l rest = DAction.deleteGo ↔
      (i.isOpMoveLoadAddress && !i.sideEffects && overwriteDelete l rest) = true := by
    by_cases hcond : (i.isOpMoveLoadAddress && !i.sideEffects && overwriteDelete l rest) = true
    · unfold dceRule3
      rw [if_pos hcond]
      exact iff_of_true rfl hcond
    · unfold dceRule3
      rw [if_neg hcond]
      exact iff_of_false (fun h => DAction.noConfusion h) hcond
  rw [hbase]
  simp only [Bool.and_eq_true, Bool.not_eq_true']
  rw [overwriteDelete_iff]
  tauto

/-- Example side-effect-free write to local `5`, last instruction of its
block (so nothing reads or overwrites the local before the block ends). -/
def exC3w : DInstr := { iid := 1, kind := DKind.move, outLoc := some 5, args := [DArg.lit 0] }

/-- Example label heading the second block. -/
def exC3lbl2 : DInstr := { iid := 2, kind := DKind.label }

/-- Example side-effecting instruction in the second block reading local
`5` (so the local does have a reader in the method). -/
def exC3rdr : DInstr :=
  { iid := 3, kind := DKind.other, args := [DArg.loc 5], sideEffects := true }

/-- Example two-block method: the write to local `5` is never read before
the end of its basic block, but is read in the following block. -/
def exC3 : DMethod := { blocks := [[exLbl, exC3w], [exC3lbl2, exC3rdr]] }

/-- C3 counterexample: a side-effect-free write to a local that is never
read before the end of its basic block is NOT deleted — the forward-scan
rule only deletes when the scan stops at an unconditional overwrite, and
falling off the end of the block keeps the instruction.  Here `exC3w`
writes local `5`, the rest of its block is empty (the scan over `[]`
returns `none`), and the pass leaves the method unchanged. -/
theorem c3_deadStoreElimination_counterexample :
    exC3.blocks = [[exLbl, exC3w], [exC3lbl2, exC3rdr]] ∧
    exC3w.isOpMoveLoadAddress = true ∧ exC3w.sideEffects = false ∧
    exC3w.writesLocal 5 = true ∧
    scanOverwrite 5 [] = none ∧
    (eliminateDeadCode exC3).1 = exC3 := by
  decide

theorem joinBlocks_append_single (A : List (List DInstr)) (X : List DInstr) :
    joinBlocks (A ++ [X]) = joinBlocks A ++ X := by
  simp [joinBlocks]

theorem joinBlocks_cons_eq (b : List DInstr) (bs : List (List DInstr)) :
    joinBlocks (b :: bs) = b ++ joinBlocks bs := by
  simp [joinBlocks]

theorem hasReaderIn_false_iff (bs : List (List DInstr)) (l : Nat) :
    hasReaderIn bs l = false ↔ ∀ i ∈ joinBlocks bs, i.readsLocal l = false := by
  simp [hasReaderIn, List.any_eq_false]

theorem noReader_assemble (l : Nat) (prev : List (List DInstr)) (doneRev todo : List DInstr)
    (next : List (List DInstr))
    (h1 : ∀ i ∈ joinBlocks prev, i.readsLocal l = false)
    (h2 : ∀ i ∈ doneRev, i.readsLocal l = false)
    (h3 : ∀ i ∈ todo, i.readsLocal l = false)
    (h4 : ∀ i ∈ joinBlocks next, i.readsLocal l = false) :
    hasReaderIn (prev ++ [doneRev.reverse ++ todo] ++ next) l = false := by
  rw [hasReaderIn_false_iff]
  intro i hi
  rcases mem_joinBlocks_three.mp hi with h | h | h
  · exact h1 i h
  · rcases List.mem_append.mp h with h2m | h3m
    · exact h2 i (List.mem_reverse.mp h2m)
    · exact h3 i h3m
  · exact h4 i h

theorem dceDecide_rule1 (pars unis : List Nat) (types : List (Nat × Nat))
    (cur : List (List DInstr)) (x : DInstr) (rest : List DInstr) (l : Nat)
    (hk : x.isOpMoveLoadAddress = true) (hse : x.sideEffects = false)
    (hout : x.outLoc = some l) (hpar : listHas pars l = false)
    (hrd : hasReaderIn cur l = false) :
    dceDecide pars unis types cur x rest = DAction.deleteStepBack := by
  unfold dceDecide
  rw [hout]
  simp [hk, hse, hpar, hrd]

theorem dcePhi_block (prev : List (List DInstr)) (doneRev b : List DInstr)
    (bs : List (List DInstr)) :
    dcePhi (prev ++ [doneRev.reverse]) [] b bs + 1 ≤ dcePhi prev doneRev [] (b :: bs) := by
  simp only [dcePhi, joinBlocks, List.flatten_append, List.flatten_cons, List.flatten_nil,
    List.append_nil, List.length_append, List.length_reverse, List.length_cons, List.length_nil]
  nlinarith

theorem dcePhi_stepback_nil (prev : List (List DInstr)) (i : DInstr) (rest : List DInstr)
    (next : List (List DInstr)) :
    dcePhi prev [] rest next + 1 ≤ dcePhi prev [] (i :: rest) next := by
  simp only [dcePhi, List.length_cons, List.length_nil]
  nlinarith

theorem dcePhi_stepback_cons (prev : List (List DInstr)) (d : DInstr) (ds : List DInstr)
    (i : DInstr) (rest : List DInstr) (next : List (List DInstr)) :
    dcePhi prev ds (d :: rest) next + 1 ≤ dcePhi prev (d :: ds) (i :: rest) next := by
  simp only [dcePhi, List.length_cons]
  nlinarith

theorem dcePhi_go (prev : List (List DInstr)) (doneRev : List DInstr) (i : DInstr)
    (rest : List DInstr) (next : List (List DInstr)) :
    dcePhi prev doneRev rest next + 1 ≤ dcePhi prev doneRev (i :: rest) next := by
  simp only [dcePhi, List.length_cons]
  nlinarith

theorem dcePhi_keep (prev : List (List DInstr)) (doneRev : List DInstr) (i : DInstr)
    (rest : List DInstr) (next : List (List DInstr)) :
    dcePhi prev (i :: doneRev) rest next + 1 ≤ dcePhi prev doneRev (i :: rest) next := by
  simp only [dcePhi, List.length_cons]
  nlinarith

theorem dceFuel_sufficient (m : DMethod) (b : List DInstr) (rest : List (List DInstr))
    (hb : m.blocks = b :: rest) : dcePhi [] [] b rest < dceFuel m := by
  simp only [dcePhi, dceFuel, hb, joinBlocks, List.flatten_cons, List.flatten_nil,
    List.length_append, List.length_cons, List.length_nil]
  nlinarith

theorem dceRun_rule1_absent (pars unis : List Nat) (types : List (Nat × Nat)) (x : DInstr)
    (l : Nat) (hk : x.isOpMoveLoadAddress = true) (hse : x.sideEffects = false)
    (hout : x.outLoc = some l) (hpar : listHas pars l = false) :
    ∀ (fuel : Nat) (prev : List (List DInstr)) (doneRev todo : List DInstr)
      (next : List (List DInstr)) (ch : Bool),
      dcePhi prev doneRev todo next < fuel →
      (∀ i ∈ joinBlocks prev, i.readsLocal l = false) →
      (∀ i ∈ doneRev, i.readsLocal l = false) →
      (∀ i ∈ todo, i.readsLocal l = false) →
      (∀ i ∈ joinBlocks next, i.readsLocal l = false) →
      x ∉ joinBlocks prev → x ∉ doneRev →
      x ∉ joinBlocks (dceRun pars unis types fuel prev doneRev todo next ch).1 := by
  intro fuel
  induction fuel with
  | zero =>
    intro prev doneRev todo next ch hfuel
    exact absurd hfuel (Nat.not_lt_zero _)
  | succ fuel ih =>
    intro prev doneRev todo next ch hfuel h1 h2 h3 h4 hx1 hx2
    cases todo with
    | nil =>
      cases next with
      | nil =>
        simp only [dceRun]
        intro hmem
        rw [joinBlocks_append_single] at hmem
        rcases List.mem_append.mp hmem with h | h
        · exact hx1 h
        · exact hx2 (List.mem_reverse.mp h)
      | cons b bs =>
        simp only [dceRun]
        apply ih
        · have := dcePhi_block prev doneRev b bs
          omega
        · intro i hi
          rw [joinBlocks_append_single] at hi
          rcases List.mem_append.mp hi with h | h
          · exact h1 i h
          · exact h2 i (List.mem_reverse.mp h)
        · intro i hi
          exact absurd hi (List.not_mem_nil i)
        · intro i hi
          exact h4 i (by rw [joinBlocks_cons_eq]; exact List.mem_append_left _ hi)
        · intro i hi
          exact h4 i (by rw [joinBlocks_cons_eq]; exact List.mem_append_right _ hi)
        · intro hy
          rw [joinBlocks_append_single] at hy
          rcases List.mem_append.mp hy with h | h
          · exact hx1 h
          · exact hx2 (List.mem_reverse.mp h)
        · exact List.not_mem_nil x
    | cons i rest =>
      simp only [dceRun]
      cases hdec : dceDecide pars unis types (prev ++ [doneRev.reverse ++ i :: rest] ++ next) i
          rest with
      | mergeLocals inl outl =>
        exact absurd hdec (dceDecide_ne_merge pars unis types prev doneRev rest next i inl outl)
      | deleteStepBack =>
        cases doneRev with
        | nil =>
          apply ih
          · have := dcePhi_stepback_nil prev i rest next
            omega
          · exact h1
          · intro j hj
            exact absurd hj (List.not_mem_nil j)
          · exact fun j hj => h3 j (List.mem_cons_of_mem i hj)
          · exact h4
          · exact hx1
          · exact List.not_mem_nil x
        | cons d ds =>
          apply ih
          · have := dcePhi_stepback_cons prev d ds i rest next
            omega
          · exact h1
          · exact fun j hj => h2 j (List.mem_cons_of_mem d hj)
          · intro j hj
            rcases List.mem_cons.mp hj with rfl | hj2
            · exact h2 j (List.mem_cons_self j ds)
            · exact h3 j (List.mem_cons_of_mem i hj2)
          · exact h4
          · exact hx1
          · exact fun hxds => hx2 (List.mem_cons_of_mem d hxds)
      | deleteGo =>
        apply ih
        · have := dcePhi_go prev doneRev i rest next
          omega
        · exact h1
        · exact h2
        · exact fun j hj => h3 j (List.mem_cons_of_mem i hj)
        · exact h4
        · exact hx1
        · exact hx2
      | keep =>
        have hne : i ≠ x := by
          intro hix
          subst hix
          have hrd : hasReaderIn (prev ++ [doneRev.reverse ++ i :: rest] ++ next) l = false :=
            noReader_assemble l prev doneRev (i :: rest) next h1 h2 h3 h4
          have h5 := dceDecide_rule1 pars unis types
            (prev ++ [doneRev.reverse ++ i :: rest] ++ next) i rest l hk hse hout hpar hrd
          rw [h5] at hdec
          exact DAction.noConfusion hdec
        apply ih
        · have := dcePhi_keep prev doneRev i rest next
          omega
        · exact h1
        · intro j hj
          rcases List.mem_cons.mp hj with rfl | hj2
          · exact h3 j (List.mem_cons_self j rest)
          · exact h2 j hj2
        · exact fun j hj => h3 j (List.mem_cons_of_mem i hj)
        · exact h4
        · exact hx1
        · intro hxmem
          rcases List.mem_cons.mp hxmem with h | h
          · exact hne h.symm
          · exact hx2 h

/-- Example write to the parameter local `7` (no side effects, no readers
anywhere). -/
def exParamP : DInstr := { iid := 1, kind := DKind.move, outLoc := some 7, args := [DArg.lit 1] }

/-- Example method whose only non-label instruction writes the unread
Parameter local `7`. -/
def exParam : DMethod := { blocks := [[exLbl, exParamP]], params := [7] }

/-- Example producer of local `1`, read only by `exChainQ`. -/
def exChainP : DInstr := { iid := 1, kind := DKind.move, outLoc := some 1, args := [DArg.lit 0] }

/-- Example consumer of local `1` writing the readerless local `2`. -/
def exChainQ : DInstr := { iid := 2, kind := DKind.move, outLoc := some 2, args := [DArg.loc 1] }

/-- Example dead chain: deleting `exChainQ` makes `exChainP` dead; the
step-back after the deletion reconsiders and deletes it in the same run. -/
def exChain : DMethod := { blocks := [[exLbl, exChainP, exChainQ]] }

/-- Example method for the witness: a single side-effect-free write to the
readerless non-parameter local `6`. -/
def exW : DInstr := { iid := 1, kind := DKind.move, outLoc := some 6, args := [DArg.lit 0] }

/-- Example method holding only `exW` behind a label. -/
def exWM : DMethod := { blocks := [[exLbl, exW]] }

/-- C4 counterexample: an instruction with no side effects whose output
Local has no readers anywhere in the method is NOT deleted when that local
is a Parameter — the rule explicitly exempts parameter locals, so the
write to the unread parameter local `7` survives the pass. -/
theorem c4_eliminateDeadCode_counterexample :
    exParamP.isOpMoveLoadAddress = true ∧ exParamP.sideEffects = false ∧
    exParamP.outLoc = some 7 ∧ hasReaderIn exParam.blocks 7 = false ∧
    exParamP ∈ joinBlocks (eliminateDeadCode exParam).1.blocks := by
  decide

/-- C4 (amended): a supported instruction (operation, move, load,
address) with no side effects whose output is a non-Parameter local with
no readers anywhere in the method does not survive dead-code elimination;
and after such a deletion the cursor steps back one position, so a
now-dead predecessor is deleted within the same pass invocation — on the
two-instruction chain `exChain` the consumer's deletion exposes the
producer and the single run deletes both. -/
theorem c4_eliminateDeadCode_amended (m : DMethod) (x : DInstr) (l : Nat)
    (hk : x.isOpMoveLoadAddress = true) (hse : x.sideEffects = false)
    (hout : x.outLoc = some l) (hpar : listHas m.params l = false)
    (hrd : hasReaderIn m.blocks l = false) :
    x ∉ joinBlocks (eliminateDeadCode m).1.blocks ∧
    eliminateDeadCode exChain = ({ exChain with blocks := [[exLbl]] }, true) := by
  refine ⟨?_, by decide⟩
  unfold eliminateDeadCode
  cases hb : m.blocks with
  | nil =>
    dsimp only
    rw [hb]
    exact List.not_mem_nil x
  | cons b rest =>
    dsimp only
    have hforall := (hasReaderIn_false_iff m.blocks l).mp hrd
    rw [hb] at hforall
    apply dceRun_rule1_absent m.params m.uniformBuiltins m.locTypes x l hk hse hout hpar
    · exact dceFuel_sufficient m b rest hb
    · intro i hi
      exact absurd hi (List.not_mem_nil i)
    · intro i hi
      exact absurd hi (List.not_mem_nil i)
    · intro i hi
      exact hforall i (by rw [joinBlocks_cons_eq]; exact List.mem_append_left _ hi)
    · intro i hi
      exact hforall i (by rw [joinBlocks_cons_eq]; exact List.mem_append_right _ hi)
    · exact List.not_mem_nil x
    · exact List.not_mem_nil x

theorem c4_eliminateDeadCode_witness :
    exW.isOpMoveLoadAddress = true ∧ exW.sideEffects = false ∧ exW.outLoc = some 6 ∧
    listHas exWM.params 6 = false ∧ hasReaderIn exWM.blocks 6 = false ∧
    (exW ∉ joinBlocks (eliminateDeadCode exWM).1.blocks ∧
      eliminateDeadCode exChain = ({ exChain with blocks := [[exLbl]] }, true)) :=
  ⟨by decide, by decide, by decide, by decide, by decide,
    c4_eliminateDeadCode_amended exWM exW 6 (by decide) (by decide) (by decide) (by decide)
      (by decide)⟩

/-- Instruction as `Method::isLocallyLimited` reads it: an identity (the
pointer identity of the `LocalUser`), the locals the instruction uses
(reads or writes — `locale->getUsers()` collects both), whether it is a
`Branch`, its target labels, whether the branch is unconditional, and the
label it carries when it is a `BranchLabel` heading a block. -/
structure CInstr where
  iid : Nat := 0
  uses : List Nat := []
  isBranch : Bool := false
  targets : List Nat := []
  uncond : Bool := false
  labelOf : Option Nat := none
  deriving DecidableEq

/-- Method as `isLocallyLimited` walks it: the basic blocks, each a plain
instruction list whose head is the block's label instruction (the walker
visits label instructions like any other). -/
structure CMethod where
  blocks : List (List CInstr)
  deriving DecidableEq

/-- Translation of the `removeUser` helper (without the
`CombinedOperation` refinement, which none of our instructions are):
erase the instruction from the remaining-users set. -/
def removeUser (rem : List Nat) (i : CInstr) : List Nat :=
  rem.filter fun u => decide (u ≠ i.iid)

/-- Identities of all users of `loc` in the method, in program order
(`locale->getUsers()`). -/
def localUsers (m : CMethod) (loc : Nat) : List Nat :=
  (m.blocks.flatten.filter fun i => decide (loc ∈ i.uses)).map fun i => i.iid

/-- `findBasicBlock(target)` together with the rest of the method after
it, since both scan loops walk from the found block to the end of the
method (`it.nextInMethod()`). -/
def findBlockFrom : List (List CInstr) → Nat → Option (List CInstr × List (List CInstr))
  | [], _ => none
  | b :: bs, t =>
    if (b.head?.bind CInstr.labelOf) = some t then some (b, bs) else findBlockFrom bs t

/-- Control state of the two mutually recursive scan loops of
`isLocallyLimited` / `removeUsagesInBasicBlock`: either walking
instructions (`step`, with `isMain` telling whether this is the outer loop
that aborts on unconditional branches), or working through the target
labels of a branch instruction (`branches`). -/
inductive ScanState where
  | step (isMain : Bool) (todo : List CInstr) (next : List (List CInstr))
  | branches (isMain : Bool) (i : CInstr) (targets : List Nat) (rest : List CInstr)
      (next : List (List CInstr))

/-- Translation of the scan loops of `Method::isLocallyLimited` and
`removeUsagesInBasicBlock` with a structurally decreasing fuel
(`scanFuel` below supplies enough for every branch-free walk; the
fuel-exhaustion arm returns the loop-exit value).  The remaining-users
set `rem` and the signed budget `usageRangeLeft` are threaded through
everything, as the C++ passes both by reference; a loop iteration runs
only while the budget is non-negative and the method end is not reached,
discharges the current instruction, decrements the budget, recurses into
each branch target (returning `true` early if the set empties there), and
in the outer loop returns `false` after an unconditional branch. -/
def scanUses (blocks : List (List CInstr)) :
    Nat → ScanState → List Nat → Int → Bool × List Nat × Int
  | 0, _, rem, budget => (rem.isEmpty, rem, budget)
  | fuel + 1, ScanState.step isMain todo next, rem, budget =>
    match todo, next with
    | [], [] => (rem.isEmpty, rem, budget)
    | [], b :: bs => scanUses blocks fuel (ScanState.step isMain b bs) rem budget
    | i :: rest, next =>
      if budget < 0 then (rem.isEmpty, rem, budget)
      else
        if i.isBranch then
          scanUses blocks fuel (ScanState.branches isMain i i.targets rest next)
            (removeUser rem i) (budget - 1)
        else
          scanUses blocks fuel (ScanState.step isMain rest next) (removeUser rem i) (budget - 1)
  | fuel + 1, ScanState.branches isMain i ts rest next, rem, budget =>
    match ts with
    | [] =>
      if isMain && i.uncond then (false, rem, budget)
      else scanUses blocks fuel (ScanState.step isMain rest next) rem budget
    | t :: ts =>
      match findBlockFrom blocks t with
      | none => scanUses blocks fuel (ScanState.branches isMain i ts rest next) rem budget
      | some (b, bs) =>
        match scanUses blocks fuel (ScanState.step false b bs) rem budget with
        | (true, rem2, budget2) => (true, rem2, budget2)
        | (false, rem2, budget2) =>
          scanUses blocks fuel (ScanState.branches isMain i ts rest next) rem2 budget2

/-- Fuel bound for `scanUses`: ample for the budget-bounded walk (every
iteration decrements the single shared budget, and branch recursion is
bounded by the targets present). -/
def scanFuel (m : CMethod) (t : Nat) : Nat :=
  (t + 2) * ((m.blocks.flatten.map fun i => i.targets.length).foldr (· + ·) 0 + 2) +
    m.blocks.flatten.length + 2

/-- Translation of `Method::isLocallyLimited` at the position `k` of block
`bi`: collect all users of the local, discharge the instruction
immediately before the position when the position does not start its
block, then run the main scan loop from the position with the threshold
as initial budget. -/
def isLocallyLimited (m : CMethod) (bi k loc threshold : Nat) : Bool :=
  let blk := m.blocks.getD bi []
  let rem0 := localUsers m loc
  let rem1 :=
    if k = 0 then rem0
    else
      match blk.get? (k - 1) with
      | some p => removeUser rem0 p
      | none => rem0
  (scanUses m.blocks (scanFuel m threshold)
      (ScanState.step true (blk.drop k) (m.blocks.drop (bi + 1))) rem1 (threshold : Int)).1

/-- Example label instruction of the single-block counterexample method. -/
def exC1lbl : CInstr := { iid := 0, labelOf := some 0 }

/-- Example instruction using local `9`, placed before the scan position. -/
def exC1use : CInstr := { iid := 1, uses := [9] }

/-- Example filler instruction. -/
def exC1i2 : CInstr := { iid := 2 }

/-- Example filler instruction. -/
def exC1i3 : CInstr := { iid := 3 }

/-- Example single-block method whose only use of local `9` lies strictly
before position 3 (and not immediately before it). -/
def exC1 : CMethod := { blocks := [[exC1lbl, exC1use, exC1i2, exC1i3]] }

/-- C1 counterexample: `isLocallyLimited` is not a statement about the
uses from the position onward.  In `exC1` no instruction from position 3
onward uses local `9` — every remaining use from that position trivially
lies within any threshold — yet the function returns `false`, because it
seeds the scan with ALL users of the local anywhere in the method and the
use at position 1 is never reached by the forward walk. -/
theorem c1_isLocallyLimited_counterexample :
    ((exC1.blocks.getD 0 []).drop 3).all (fun i => !decide (9 ∈ i.uses)) = true ∧
    isLocallyLimited exC1 0 3 9 5 = false := by
  decide

theorem mem_foldl_removeUser : ∀ (chunk : List CInstr) (rem : List Nat) (u : Nat),
    u ∈ chunk.foldl removeUser rem ↔ u ∈ rem ∧ ∀ i ∈ chunk, u ≠ i.iid := by
  intro chunk
  induction chunk with
  | nil => intro rem u; simp
  | cons i rest ih =>
    intro rem u
    simp only [List.foldl_cons, ih, removeUser, List.mem_filter, List.forall_mem_cons,
      decide_eq_true_eq]
    tauto

theorem scanUses_branchFree (blocks : List (List CInstr)) :
    ∀ (todo : List CInstr) (isMain : Bool) (rem : List Nat) (b : Int) (fuel : Nat),
      (∀ i ∈ todo, i.isBranch = false) → todo.length < fuel →
      scanUses blocks fuel (ScanState.step isMain todo []) rem b =
        (((todo.take (b + 1).toNat).foldl removeUser rem).isEmpty,
          (todo.take (b + 1).toNat).foldl removeUser rem,
          b - min todo.length ((b + 1).toNat)) := by
  intro todo
  induction todo with
  | nil =>
    intro isMain rem b fuel hnb hf
    cases fuel with
    | zero => exact absurd hf (by omega)
    | succ f => simp [scanUses]
  | cons i rest ih =>
    intro isMain rem b fuel hnb hf
    cases fuel with
    | zero => exact absurd hf (by omega)
    | succ f =>
      by_cases hb : b < 0
      · have ht : (b + 1).toNat = 0 := by omega
        simp [scanUses, hb, ht]
      · have ht : (b + 1).toNat = b.toNat + 1 := by omega
        have hbr : i.isBranch = false := hnb i (List.mem_cons_self i rest)
        rw [show scanUses blocks (f + 1) (ScanState.step isMain (i :: rest) []) rem b =
            scanUses blocks f (ScanState.step isMain rest []) (removeUser rem i) (b - 1) from by
          simp [scanUses, hb, hbr]]
        rw [ih isMain (removeUser rem i) (b - 1) f
          (fun j hj => hnb j (List.mem_cons_of_mem i hj))
          (by simp only [List.length_cons] at hf; omega)]
        have ht2 : (b - 1 + 1).toNat = b.toNat := by omega
        simp only [ht, ht2, List.take_succ_cons, List.foldl_cons, List.length_cons,
          Prod.mk.injEq, true_and]
        omega

theorem localUsers_single_mem (bl : List CInstr) (loc u : Nat) :
    u ∈ localUsers ⟨[bl]⟩ loc ↔
      ∃ j, ∃ hj : j < bl.length, loc ∈ (bl.get ⟨j, hj⟩).uses ∧ (bl.get ⟨j, hj⟩).iid = u := by
  simp only [localUsers]
  have hfl : (CMethod.mk [bl]).blocks.flatten = bl := by simp
  rw [hfl]
  simp only [List.mem_map, List.mem_filter, decide_eq_true_eq]
  constructor
  · rintro ⟨i, ⟨hi, huse⟩, rfl⟩
    obtain ⟨j, hj, hget⟩ := List.mem_iff_getElem.mp hi
    refine ⟨j, hj, ?_, ?_⟩
    · rw [List.get_eq_getElem, hget]
      exact huse
    · rw [List.get_eq_getElem, hget]
  · rintro ⟨j, hj, huse, hiid⟩
    exact ⟨bl.get ⟨j, hj⟩, ⟨by rw [List.get_eq_getElem]; exact List.getElem_mem hj, huse⟩, hiid⟩

theorem window_mem (bl : List CInstr) (k t : Nat) (i : CInstr) :
    i ∈ (bl.drop k).take (t + 1) ↔
      ∃ j, ∃ hj : j < bl.length, k ≤ j ∧ j ≤ k + t ∧ bl.get ⟨j, hj⟩ = i := by
  constructor
  · intro hi
    obtain ⟨d, hd, hget⟩ := List.mem_iff_getElem.mp hi
    have hlen : d < t + 1 ∧ d < bl.length - k := by
      simp only [List.length_take, List.length_drop, lt_min_iff] at hd
      omega
    have hdk : k + d < bl.length := by omega
    refine ⟨k + d, hdk, Nat.le_add_right k d, by omega, ?_⟩
    rw [List.get_eq_getElem, ← hget, List.getElem_take, List.getElem_drop]
  · rintro ⟨j, hj, hkj, hjt, rfl⟩
    rw [List.get_eq_getElem]
    apply List.mem_iff_getElem.mpr
    refine ⟨j - k, ?_, ?_⟩
    · simp only [List.length_take, List.length_drop, lt_min_iff]
      omega
    · rw [List.getElem_take, List.getElem_drop]
      congr 1
      show k + (j - k) = j
      omega

theorem iid_inj_of_nodup (bl : List CInstr) (hnd : (bl.map fun i => i.iid).Nodup)
    (j1 j2 : Nat) (h1 : j1 < bl.length) (h2 : j2 < bl.length)
    (he : (bl.get ⟨j1, h1⟩).iid = (bl.get ⟨j2, h2⟩).iid) : j1 = j2 := by
  have h1m : j1 < (bl.map fun i => i.iid).length := by simpa using h1
  have h2m : j2 < (bl.map fun i => i.iid).length := by simpa using h2
  have hmap : (bl.map fun i => i.iid)[j1] = (bl.map fun i => i.iid)[j2] := by
    rw [List.getElem_map, List.getElem_map]
    rw [List.get_eq_getElem, List.get_eq_getElem] at he
    exact he
  exact (List.Nodup.getElem_inj_iff hnd).mp hmap

/-- C1 (amended): within a branch-free basic block with distinct
instruction identities, `isLocallyLimited` at position `k` with threshold
`t` returns `true` exactly when every use of the local anywhere in the
block lies between one instruction before the position (discharged up
front by the function) and `t` instructions after it.  In particular a
use strictly before that window forces `false` even though every use from
the position onward is within the threshold, and uses are counted over
the whole method, not from the position onward. -/
theorem c1_isLocallyLimited_amended (bl : List CInstr) (loc t k : Nat)
    (hnb : ∀ i ∈ bl, i.isBranch = false)
    (hnd : (bl.map fun i => i.iid).Nodup)
    (hk : k ≤ bl.length) :
    isLocallyLimited ⟨[bl]⟩ 0 k loc t = true ↔
      ∀ j, ∀ hj : j < bl.length, loc ∈ (bl.get ⟨j, hj⟩).uses → (k - 1 ≤ j ∧ j ≤ k + t) := by
  have hred : isLocallyLimited ⟨[bl]⟩ 0 k loc t =
      (scanUses [bl] (scanFuel ⟨[bl]⟩ t) (ScanState.step true (bl.drop k) [])
        (if k = 0 then localUsers ⟨[bl]⟩ loc
         else
           match bl.get? (k - 1) with
           | some p => removeUser (localUsers ⟨[bl]⟩ loc) p
           | none => localUsers ⟨[bl]⟩ loc) (t : Int)).1 := rfl
  rw [hred]
  have hfuel : (bl.drop k).length < scanFuel ⟨[bl]⟩ t := by
    have h1 : (bl.drop k).length ≤ bl.length := by
      rw [List.length_drop]
      omega
    have h2 : scanFuel ⟨[bl]⟩ t =
        (t + 2) * (((bl.map fun i => i.targets.length).foldr (· + ·) 0) + 2) + bl.length + 2 := by
      simp [scanFuel]
    rw [h2]
    nlinarith [Nat.zero_le ((t + 2) * (((bl.map fun i => i.targets.length).foldr (· + ·) 0) + 2))]
  rw [scanUses_branchFree [bl] (bl.drop k) true _ (t : Int) (scanFuel ⟨[bl]⟩ t)
    (fun i hi => hnb i (List.drop_subset k bl hi)) hfuel]
  dsimp only
  have htn : ((t : Int) + 1).toNat = t + 1 := by omega
  rw [htn, List.isEmpty_iff, List.eq_nil_iff_forall_not_mem]
  constructor
  · intro hall j hj huse
    by_contra hcon
    apply hall (bl.get ⟨j, hj⟩).iid
    rw [mem_foldl_removeUser]
    have hu0 : (bl.get ⟨j, hj⟩).iid ∈ localUsers ⟨[bl]⟩ loc :=
      (localUsers_single_mem bl loc _).mpr ⟨j, hj, huse, rfl⟩
    constructor
    · by_cases hk0 : k = 0
      · rw [if_pos hk0]
        exact hu0
      · have hk1 : k - 1 < bl.length := by omega
        rw [if_neg hk0, List.get?_eq_get hk1]
        simp only [removeUser, List.mem_filter, decide_eq_true_eq]
        refine ⟨hu0, ?_⟩
        intro hEq
        have hjj := iid_inj_of_nodup bl hnd j (k - 1) hj hk1 hEq
        exact hcon (by omega)
    · intro i hiW
      obtain ⟨j2, hj2, hkj2, hjt2, heq2⟩ := (window_mem bl k t i).mp hiW
      intro hEq
      rw [← heq2] at hEq
      have hjj := iid_inj_of_nodup bl hnd j j2 hj hj2 hEq
      exact hcon (by omega)
  · intro hwin u huMem
    rw [mem_foldl_removeUser] at huMem
    obtain ⟨hu1, hW⟩ := huMem
    by_cases hk0 : k = 0
    · rw [if_pos hk0] at hu1
      obtain ⟨j, hj, huse, hiid⟩ := (localUsers_single_mem bl loc u).mp hu1
      obtain ⟨hjw1, hjw2⟩ := hwin j hj huse
      exact hW (bl.get ⟨j, hj⟩)
        ((window_mem bl k t _).mpr ⟨j, hj, by omega, by omega, rfl⟩) hiid.symm
    · rw [if_neg hk0] at hu1
      have hk1 : k - 1 < bl.length := by omega
      rw [List.get?_eq_get hk1] at hu1
      simp only [removeUser, List.mem_filter, decide_eq_true_eq] at hu1
      obtain ⟨hu0, hne⟩ := hu1
      obtain ⟨j, hj, huse, hiid⟩ := (localUsers_single_mem bl loc u).mp hu0
      obtain ⟨hjw1, hjw2⟩ := hwin j hj huse
      by_cases hjk : j = k - 1
      · subst hjk
        exact hne hiid.symm
      · exact hW (bl.get ⟨j, hj⟩)
          ((window_mem bl k t _).mpr ⟨j, hj, by omega, by omega, rfl⟩) hiid.symm

/-- Example branch-free block with distinct identities for the C1
witness. -/
def exC1W : List CInstr := [exC1lbl, exC1use, exC1i2]

theorem c1_isLocallyLimited_witness :
    (∀ i ∈ exC1W, i.isBranch = false) ∧ (exC1W.map fun i => i.iid).Nodup ∧
    1 ≤ exC1W.length ∧
    (isLocallyLimited ⟨[exC1W]⟩ 0 1 9 0 = true ↔
      ∀ j, ∀ hj : j < exC1W.length, 9 ∈ (exC1W.get ⟨j, hj⟩).uses → (1 - 1 ≤ j ∧ j ≤ 1 + 0)) :=
  ⟨by decide, by decide, by decide,
    c1_isLocallyLimited_amended exC1W 9 0 1 (by decide) (by decide) (by decide)⟩
